import Mathlib

/-!
# Punctual: scheduled task and timeout framework

A shallow embedding of `punctual.c` / `punctual.h`.

Machine integers are natural numbers reduced modulo `2^w` where the C code
wraps (`uint32_t`, `uint8_t`), and `Int` after the conversion to `int32_t`.
-/

namespace Punctual

/-! ## Machine arithmetic -/

/-- Number of values of a `uint32_t` (`tTime`, `result`, `puncPostscaler`). -/
def U32 : Nat := 2 ^ 32

/-- Number of values of a `uint8_t` (`puncCnt`, the loop counter of `PunctualCreate`). -/
def U8 : Nat := 2 ^ 8

/-- Unsigned 32-bit addition `a + b`. -/
def add32 (a b : Nat) : Nat := (a + b) % U32

/-- Unsigned 32-bit subtraction `a - b` (wraps below zero). -/
def sub32 (a b : Nat) : Nat := (a % U32 + (U32 - b % U32)) % U32

/-- Conversion of a `uint32_t` value to `int32_t` (two's complement), as performed by
the assignment `timeDiff = to->due - PunctualGetTime()`. -/
def toInt32 (x : Nat) : Int :=
  if x % U32 < 2 ^ 31 then ((x % U32 : Nat) : Int) else ((x % U32 : Nat) : Int) - (U32 : Int)

/-! ## Timeout helper -/

/-- The C `struct tTimeout`: `due` is the time stamp of the next timeout, `period` the
reload period; both are `tTime = uint32_t`. -/
structure tTimeout where
  due : Nat
  period : Nat
deriving DecidableEq, Repr

/-- Embedding of `PunctualTimeoutSet(to, ms)`, with `now` the value read from
`PunctualGetTime()`, the 32-bit tick counter of the external tick source. -/
def PunctualTimeoutSet (now : Nat) (_tmo : tTimeout) (ms : Nat) : tTimeout :=
  { period := ms, due := add32 now ms }

/-- Embedding of `PunctualTimeoutEdit(to, ms)`. The function does not read the tick
counter. -/
def PunctualTimeoutEdit (tmo : tTimeout) (ms : Nat) : tTimeout :=
  let timeNew := sub32 tmo.due tmo.period
  { period := ms, due := add32 timeNew ms }

/-- Embedding of `PunctualTimeoutCheck(to)`. The function reads `PunctualGetTime()` up to
three times; `t1`, `t2`, `t3` are the values of the first, second and third read. Returns
the updated timeout and the return value (`true` / `false`). -/
def PunctualTimeoutCheck (t1 t2 t3 : Nat) (tmo : tTimeout) : tTimeout × Bool :=
  let timeDiff := toInt32 (sub32 tmo.due t1)
  if timeDiff ≤ 0 then
    let to1 : tTimeout := { tmo with due := add32 tmo.due tmo.period }
    let timeDiff := toInt32 (sub32 to1.due t2)
    if timeDiff ≤ 0 then
      ({ to1 with due := add32 t3 to1.period }, true)
    else
      (to1, true)
  else
    (tmo, false)

/-- The call `PunctualTimeoutCheck(to)` executed while the tick counter stands at `now`
(all reads of `PunctualGetTime()` return `now`). -/
def PunctualTimeoutCheckAt (now : Nat) (tmo : tTimeout) : tTimeout × Bool :=
  PunctualTimeoutCheck now now now tmo

/-! ## Task table -/

/-- The C `struct tPunctualItem`. `handle` is the function pointer `uint32_t (*)(void *)`:
`none` is `NULL`, `some f` a task body, taken as a pure function from the parameter it is
called with to the `uint32_t` it returns. `result` is the return value of the last call.
`param` is the `void *` passed to the task, with `0` for `NULL`. -/
structure tPunctualItem where
  handle : Option (Nat → Nat)
  result : Nat
  param : Nat

/-- A value of type `tPunctualItem *`: `none` is `NULL`, `some i` is the address
`puncList + i` (that is `&puncList[i]`), for any integer `i`, inside the table or not. -/
abbrev tPunctualItemPtr := Option Int

/-- The global variables of `punctual.c`, for a table of `N = PUNCTUAL_MAX_TASKS` slots,
together with the two pieces of the environment the functions act on: `intEn`, the
interrupt-enable flag of the processor, and `pastEnd`, the storage located at
`&puncList[PUNCTUAL_MAX_TASKS]` (one past the last slot, not part of the table) seen through
the type `tPunctualItem`. -/
structure State (N : Nat) where
  puncList : Fin N → tPunctualItem
  puncPostscaler : Nat
  puncCnt : Nat
  intEn : Bool
  pastEnd : tPunctualItem

/-- Modelled from the spec: the interrupt masking primitive "is currently enabled?"
(`mIsIntEnabled` of `porty.h`, which is not part of the sources). -/
def mIsIntEnabled {N : Nat} (s : State N) : Bool := s.intEn

/-- Modelled from the spec: the interrupt masking primitive "disable" (`mIntDisable` of
`porty.h`, which is not part of the sources). -/
def mIntDisable {N : Nat} (s : State N) : State N := { s with intEn := false }

/-- Modelled from the spec: the interrupt masking primitive "enable" (`mIntEnable` of
`porty.h`, which is not part of the sources). -/
def mIntEnable {N : Nat} (s : State N) : State N := { s with intEn := true }

/-- The slot a pointer designates: slot `i` of the table for `puncList + i` with
`0 ≤ i < N`, the storage behind the table for `puncList + N`, nothing that the embedding
describes for any other pointer. -/
def load {N : Nat} (s : State N) (ptr : tPunctualItemPtr) : Option tPunctualItem :=
  match ptr with
  | none => none
  | some i =>
    if h : 0 ≤ i ∧ i < N then some (s.puncList ⟨i.toNat, by omega⟩)
    else if i = N then some s.pastEnd
    else none

/-- A write `ptr->field = value` through the pointer `puncList + i`, given as the function
`f` that changes the field: it lands in slot `i` of the table for `0 ≤ i < N` and in the
storage behind the table for `i = N`. -/
def store {N : Nat} (s : State N) (i : Int) (f : tPunctualItem → tPunctualItem) : State N :=
  if h : 0 ≤ i ∧ i < N then
    let k : Fin N := ⟨i.toNat, by omega⟩
    { s with puncList := Function.update s.puncList k (f (s.puncList k)) }
  else if i = N then { s with pastEnd := f s.pastEnd }
  else s

/-- Embedding of `PunctualInit()`: clears the postscaler and zeroes the table. -/
def PunctualInit {N : Nat} (s : State N) : State N :=
  { s with puncPostscaler := 0, puncList := fun _ => ⟨none, 0, 0⟩ }

/-- The `for` loop of `PunctualCreate`, started with the counter at `i`. The counter is a
`uint8_t`, so `i++` wraps at 256. `fuel` bounds the number of iterations: `none` means the
loop has not ended within `fuel` iterations. Returns the table and the local `ptr`. -/
def createLoop {N : Nat} (handle : Option (Nat → Nat)) :
    Nat → Nat → (Fin N → tPunctualItem) → Option ((Fin N → tPunctualItem) × tPunctualItemPtr)
  | 0, _, _ => none
  | fuel + 1, i, tbl =>
    if h : i < N then
      if (tbl ⟨i, h⟩).handle.isNone then
        some (Function.update tbl ⟨i, h⟩ { tbl ⟨i, h⟩ with handle := handle }, some (i : Int))
      else
        createLoop handle fuel ((i + 1) % U8) tbl
    else
      some (tbl, none)

/-- Embedding of `PunctualCreate(handle)`: returns the new state and the returned pointer,
or `none` when the scan has not ended within `fuel` iterations. -/
def PunctualCreate {N : Nat} (fuel : Nat) (s : State N) (handle : Option (Nat → Nat)) :
    Option (State N × tPunctualItemPtr) :=
  let intEn := mIsIntEnabled s
  let s1 := mIntDisable s
  match createLoop handle fuel 0 s1.puncList with
  | none => none
  | some (tbl, ptr) =>
    let s2 := { s1 with puncList := tbl }
    some (if intEn then mIntEnable s2 else s2, ptr)

/-- Embedding of `PunctualDestroy(ptr)`. The consistency check is
`(ptr >= puncList) && (ptr <= &puncList[PUNCTUAL_MAX_TASKS])`; `NULL` lies below the
table. -/
def PunctualDestroy {N : Nat} (s : State N) (ptr : tPunctualItemPtr) : State N :=
  match ptr with
  | none => s
  | some i =>
    if 0 ≤ i ∧ i ≤ (N : Int) then
      let intEn := mIsIntEnabled s
      let s1 := mIntDisable s
      let s2 := store s1 i (fun it => { it with handle := none })
      if intEn then mIntEnable s2 else s2
    else s

/-- The body of the dispatch loop of `PunctualISR` for one slot: a slot with a handle is
called with its parameter, the return value is stored and the parameter cleared. -/
def callSlot (it : tPunctualItem) : tPunctualItem :=
  match it.handle with
  | some f => { it with result := f it.param, param := 0 }
  | none => it

/-- The table after the first `k` iterations of the `for` loop of `PunctualISR`, which
walks `ptr` from `puncList` up to `&puncList[PUNCTUAL_MAX_TASKS]`. -/
def isrLoop {N : Nat} (tbl : Fin N → tPunctualItem) : Nat → (Fin N → tPunctualItem)
  | 0 => tbl
  | k + 1 =>
    if h : k < N then
      Function.update (isrLoop tbl k) ⟨k, h⟩ (callSlot (isrLoop tbl k ⟨k, h⟩))
    else isrLoop tbl k

/-- One dispatch pass, the body of the `if` of `PunctualISR`: reset the postscaler,
increase the `uint8_t` counter, scan all slots. -/
def dispatchPass {N : Nat} (s : State N) : State N :=
  { s with puncPostscaler := 0, puncCnt := (s.puncCnt + 1) % U8,
           puncList := isrLoop s.puncList N }

/-- Embedding of `PunctualISR()`, with `D = PUNCTUAL_ISR_POSTSCALER`. -/
def PunctualISR {N : Nat} (D : Nat) (s : State N) : State N :=
  let s1 := { s with puncPostscaler := add32 s.puncPostscaler 1 }
  if D ≤ s1.puncPostscaler then dispatchPass s1 else s1

/-- Embedding of `PunctualSend(ptr, data)`, with the same consistency check as
`PunctualDestroy`. -/
def PunctualSend {N : Nat} (s : State N) (ptr : tPunctualItemPtr) (data : Nat) : State N :=
  match ptr with
  | none => s
  | some i =>
    if 0 ≤ i ∧ i ≤ (N : Int) then
      let intEn := mIsIntEnabled s
      let s1 := mIntDisable s
      let s2 := store s1 i (fun it => { it with param := data })
      if intEn then mIntEnable s2 else s2
    else s

/-- Embedding of `PunctualReceive(ptr)` executed without a dispatch pass running between
its reads: both reads of `puncCnt` see the same state. `fuel` bounds the number of
iterations of the `do ... while` loop; the result is `none` when the loop has not ended
within `fuel` iterations or when `ptr` designates storage the embedding does not describe. -/
def PunctualReceive {N : Nat} : Nat → State N → tPunctualItemPtr → Option Nat
  | 0, _, _ => none
  | fuel + 1, s, ptr =>
    let cnt := s.puncCnt
    match load s ptr with
    | none => none
    | some it =>
      let result := it.result
      if cnt ≠ s.puncCnt then PunctualReceive fuel s ptr else some result

/-! ## Sequences of calls -/

/-- A call made by the application (`init`, `create`, `destroy`, `send`) or by the timer
interrupt (`isr`). -/
inductive Call where
  | init
  | create (handle : Option (Nat → Nat))
  | destroy (ptr : tPunctualItemPtr)
  | isr
  | send (ptr : tPunctualItemPtr) (data : Nat)

/-- Execution of one call from state `s`: the new state and, for a `create`, the pointer
it returned. -/
def step {N : Nat} (D fuel : Nat) (s : State N) :
    Call → Option (State N × Option tPunctualItemPtr)
  | Call.init => some (PunctualInit s, none)
  | Call.create handle =>
    match PunctualCreate fuel s handle with
    | none => none
    | some (s1, ptr) => some (s1, some ptr)
  | Call.destroy ptr => some (PunctualDestroy s ptr, none)
  | Call.isr => some (PunctualISR D s, none)
  | Call.send ptr data => some (PunctualSend s ptr data, none)

/-- Execution of a sequence of calls, one after the other: the final state and the log of
the `create` calls, each with the state it was called in and the pointer it returned. -/
def run {N : Nat} (D fuel : Nat) :
    State N → List Call → Option (State N × List (State N × tPunctualItemPtr))
  | s, [] => some (s, [])
  | s, c :: cs =>
    match step D fuel s c with
    | none => none
    | some (s1, r) =>
      match run D fuel s1 cs with
      | none => none
      | some (s2, log) =>
        some (s2, match r with
          | some ptr => (s, ptr) :: log
          | none => log)

/-- The calls that release no slot: `create` with a non-absent handler, `send` and
`isr`. -/
def Call.keepsSlots : Call → Bool
  | Call.create (some _) => true
  | Call.send _ _ => true
  | Call.isr => true
  | _ => false

/-- The pointer designates a slot of the table whose handle is absent (a free slot). -/
def IsFreeSlot {N : Nat} (s : State N) (ptr : tPunctualItemPtr) : Prop :=
  ∃ k : Fin N, ptr = some (k.val : Int) ∧ (s.puncList k).handle = none

instance instDecidableIsFreeSlot {N : Nat} (s : State N) (ptr : tPunctualItemPtr) :
    Decidable (IsFreeSlot s ptr) :=
  decidable_of_iff
    (∃ k : Fin N, ptr = some (k.val : Int) ∧ (s.puncList k).handle.isNone = true)
    (by simp [IsFreeSlot, Option.isNone_iff_eq_none])

/-- The state at start-up: the globals of `punctual.c` have static storage, so the table,
`puncPostscaler` and `puncCnt` start as zero; interrupts are taken as enabled and the
storage behind the table as zero. -/
def zeroState (N : Nat) : State N :=
  { puncList := fun _ => ⟨none, 0, 0⟩, puncPostscaler := 0, puncCnt := 0, intEn := true,
    pastEnd := ⟨none, 0, 0⟩ }

/-- The start-up state with every slot of the table claimed by the handler `f`. -/
def fullState (N : Nat) (f : Nat → Nat) : State N :=
  { zeroState N with puncList := fun _ => ⟨some f, 0, 0⟩ }

/-- Signed 32-bit difference of two tick values as a mathematical notion (not taken from
the code): the representative of `a - b` modulo `2^32` that lies in `[-2^31, 2^31)`. -/
def signedDiff32 (a b : Int) : Int := Int.bmod (a - b) (2 ^ 32)

/-- The test `(++puncPostscaler) >= PUNCTUAL_ISR_POSTSCALER` of `PunctualISR`: whether the
call made in state `s` performs a dispatch pass. -/
def isrDispatches {N : Nat} (D : Nat) (s : State N) : Bool :=
  decide (D ≤ add32 s.puncPostscaler 1)

/-- Whether some dispatch pass made during the execution of `calls` from state `s` invokes
the handler of slot `k`: an `isr` call that performs a pass while the handle of slot `k` is
not absent. -/
def invokedIn {N : Nat} (D fuel : Nat) : State N → List Call → Fin N → Bool
  | _, [], _ => false
  | s, c :: cs, k =>
    (match c with
      | Call.isr => isrDispatches D s && (s.puncList k).handle.isSome
      | _ => false) ||
    (match step D fuel s c with
      | none => false
      | some (s1, _) => invokedIn D fuel s1 cs k)

/-! ## Writes and the interrupt flag -/

/-- A write to a field of the slot at `puncList + slot`, recorded with the value the
interrupt-enable flag has at the moment of the write. `isHandle` tells the `handle` field
from the `param` field. -/
structure WriteEvent where
  slot : Int
  isHandle : Bool
  intEn : Bool
deriving DecidableEq, Repr

/-- The `for` loop of `PunctualCreate` as in `createLoop`, run on the whole state and
returning in addition the writes it performs (`puncList[i].handle = handle`). -/
def createLoopTraced {N : Nat} (handle : Option (Nat → Nat)) :
    Nat → Nat → State N → Option (State N × tPunctualItemPtr × List WriteEvent)
  | 0, _, _ => none
  | fuel + 1, i, s =>
    if h : i < N then
      if (s.puncList ⟨i, h⟩).handle.isNone then
        some ({ s with puncList :=
                  Function.update s.puncList ⟨i, h⟩ { s.puncList ⟨i, h⟩ with handle := handle } },
              some (i : Int), [⟨(i : Int), true, mIsIntEnabled s⟩])
      else
        createLoopTraced handle fuel ((i + 1) % U8) s
    else
      some (s, none, [])

/-- Embedding of `PunctualCreate(handle)` as in `PunctualCreate`, returning in addition the
writes to slot fields it performs. -/
def PunctualCreateTraced {N : Nat} (fuel : Nat) (s : State N) (handle : Option (Nat → Nat)) :
    Option (State N × tPunctualItemPtr × List WriteEvent) :=
  let intEn := mIsIntEnabled s
  let s1 := mIntDisable s
  match createLoopTraced handle fuel 0 s1 with
  | none => none
  | some (s2, ptr, w) => some (if intEn then mIntEnable s2 else s2, ptr, w)

/-- Embedding of `PunctualDestroy(ptr)` as in `PunctualDestroy`, returning in addition the
writes to slot fields it performs. -/
def PunctualDestroyTraced {N : Nat} (s : State N) (ptr : tPunctualItemPtr) :
    State N × List WriteEvent :=
  match ptr with
  | none => (s, [])
  | some i =>
    if 0 ≤ i ∧ i ≤ (N : Int) then
      let intEn := mIsIntEnabled s
      let s1 := mIntDisable s
      let s2 := store s1 i (fun it => { it with handle := none })
      (if intEn then mIntEnable s2 else s2, [⟨i, true, mIsIntEnabled s1⟩])
    else (s, [])

/-- Embedding of `PunctualSend(ptr, data)` as in `PunctualSend`, returning in addition the
writes to slot fields it performs. -/
def PunctualSendTraced {N : Nat} (s : State N) (ptr : tPunctualItemPtr) (data : Nat) :
    State N × List WriteEvent :=
  match ptr with
  | none => (s, [])
  | some i =>
    if 0 ≤ i ∧ i ≤ (N : Int) then
      let intEn := mIsIntEnabled s
      let s1 := mIntDisable s
      let s2 := store s1 i (fun it => { it with param := data })
      (if intEn then mIntEnable s2 else s2, [⟨i, false, mIsIntEnabled s1⟩])
    else (s, [])

/-! ## `PunctualReceive` preempted by the timer interrupt -/

/-- Byte `j` of a value, byte 0 being the least significant. -/
def byteOf (x j : Nat) : Nat := (x / 256 ^ j) % 256

/-- The dispatch passes that preempt one iteration of the `do ... while` loop of
`PunctualReceive`: the number of passes the timer interrupt performs before each read of
the iteration. The read `result = ptr->result` of the 32-bit field is taken as four byte
reads, so that passes can also fall in the middle of it; a target that reads the field at
once has `beforeByte1 = beforeByte2 = beforeByte3 = 0`. -/
structure Arrivals where
  beforeCnt : Nat
  beforeByte0 : Nat
  beforeByte1 : Nat
  beforeByte2 : Nat
  beforeByte3 : Nat
  beforeCheck : Nat
deriving DecidableEq, Repr

/-- The number of passes between the two reads of `puncCnt` of one iteration. -/
def Arrivals.betweenCounterReads (a : Arrivals) : Nat :=
  a.beforeByte0 + a.beforeByte1 + a.beforeByte2 + a.beforeByte3 + a.beforeCheck

/-- The number of passes during one iteration. -/
def Arrivals.total (a : Arrivals) : Nat := a.beforeCnt + a.betweenCounterReads

/-- The state after `n` dispatch passes of the timer interrupt. The interrupt runs
`PunctualISR` to completion, so the application only ever sees such states. -/
def passes {N : Nat} (n : Nat) (s : State N) : State N := Nat.iterate dispatchPass n s

/-- One byte of the read `ptr->result`. -/
def readResultByte {N : Nat} (s : State N) (ptr : tPunctualItemPtr) (j : Nat) : Option Nat :=
  match load s ptr with
  | none => none
  | some it => some (byteOf it.result j)

/-- Embedding of `PunctualReceive(ptr)` preempted by dispatch passes: every read of the
function is made in the state reached after the passes the schedule places before it, and
there is one entry of the schedule for each iteration of the `do ... while` loop. Returns
`result` together with the two values read from `puncCnt` in the iteration that ended the
loop; `none` when the loop has not ended within the schedule or when `ptr` designates
storage the embedding does not describe. -/
def PunctualReceiveAt {N : Nat} :
    State N → tPunctualItemPtr → List Arrivals → Option (Nat × Nat × Nat)
  | _, _, [] => none
  | s, ptr, a :: rest =>
    let s0 := passes a.beforeCnt s
    let cnt := s0.puncCnt
    let s1 := passes a.beforeByte0 s0
    match readResultByte s1 ptr 0 with
    | none => none
    | some b0 =>
      let s2 := passes a.beforeByte1 s1
      match readResultByte s2 ptr 1 with
      | none => none
      | some b1 =>
        let s3 := passes a.beforeByte2 s2
        match readResultByte s3 ptr 2 with
        | none => none
        | some b2 =>
          let s4 := passes a.beforeByte3 s3
          match readResultByte s4 ptr 3 with
          | none => none
          | some b3 =>
            let result := b0 + 256 * b1 + 65536 * b2 + 16777216 * b3
            let s5 := passes a.beforeCheck s4
            if cnt ≠ s5.puncCnt then PunctualReceiveAt s5 ptr rest
            else some (result, cnt, s5.puncCnt)

theorem toInt32_sub32 (a b : Nat) :
    toInt32 (sub32 a b) = signedDiff32 a b := by
  simp only [toInt32, sub32, signedDiff32, U32, Int.bmod_def]
  norm_num
  split_ifs <;> omega

theorem toInt32_sub32_add32 (a p b : Nat) :
    toInt32 (sub32 (add32 a p) b) = signedDiff32 ((a : Int) + p) b := by
  simp only [toInt32, sub32, add32, signedDiff32, U32, Int.bmod_def]
  norm_num
  split_ifs <;> omega

/-! ## Theorems: timeout helper -/

/-- C1. Wraparound-tolerant expiry: after `PunctualTimeoutSet(t, p)` at tick `t0` (any 32-bit
value, and in the embedding any natural number) with `0 < p ≤ 2^28`, `PunctualTimeoutCheck(t)` at tick `(t0 + e) mod 2^32` with
`e < 2^31` returns true if and only if `e ≥ p`. -/
theorem C1_timeout_expiry_iff (t0 p e : Nat) (tmo : tTimeout)
    (hp0 : 0 < p) (hp : p ≤ 2 ^ 28) (he : e < 2 ^ 31) :
    (PunctualTimeoutCheckAt ((t0 + e) % 2 ^ 32) (PunctualTimeoutSet t0 tmo p)).2 = true
      ↔ p ≤ e := by
  have h1 : toInt32 (sub32 (add32 t0 p) ((t0 + e) % 2 ^ 32)) = (p : Int) - e := by
    simp only [toInt32, sub32, add32, U32]
    norm_num
    split_ifs <;> omega
  simp only [PunctualTimeoutCheckAt, PunctualTimeoutCheck, PunctualTimeoutSet, h1]
  split_ifs <;> simp <;> omega

/-- Witness of C1 at the wraparound: armed at tick `2^32 - 1` with period `100`, checked
`100` ticks later (tick `99` after the wrap). -/
theorem C1_timeout_expiry_iff_witness :
    (PunctualTimeoutCheckAt ((4294967295 + 100) % 2 ^ 32)
        (PunctualTimeoutSet 4294967295 ⟨0, 0⟩ 100)).2 = true ↔ 100 ≤ 100 :=
  C1_timeout_expiry_iff 4294967295 100 100 ⟨0, 0⟩ (by decide) (by decide) (by decide)

/-- C2. First-expiry reload: when the signed difference `due - now` is `≤ 0` and the signed
difference `due + period - now` is `> 0`, `PunctualTimeoutCheck` returns true, sets `due` to
`(due + period) mod 2^32` and leaves `period` unchanged. -/
theorem C2_check_first_expiry (due period now : Nat)
    (h1 : signedDiff32 due now ≤ 0) (h2 : 0 < signedDiff32 ((due : Int) + period) now) :
    PunctualTimeoutCheckAt now ⟨due, period⟩
      = (⟨(due + period) % 2 ^ 32, period⟩, true) := by
  have e1 := toInt32_sub32 due now
  have e2 := toInt32_sub32_add32 due period now
  simp only [PunctualTimeoutCheckAt, PunctualTimeoutCheck, e1, e2, if_pos h1,
    if_neg (not_le.mpr h2)]
  rfl

/-- Witness of C2: `Set(t, 100)` at tick 0, `Check` at tick 100 returns true and `due`
becomes 200. -/
theorem C2_check_first_expiry_witness :
    PunctualTimeoutSet 0 ⟨0, 0⟩ 100 = ⟨100, 100⟩ ∧
    PunctualTimeoutCheckAt 100 ⟨100, 100⟩ = (⟨200, 100⟩, true) :=
  ⟨by decide, C2_check_first_expiry 100 100 100 (by decide) (by decide)⟩

/-- C3. Resync on missed periods: when the signed difference `due - now` is `≤ 0` and the
signed difference `due + period - now` is also `≤ 0`, `PunctualTimeoutCheck` returns true and
sets `due` to `(now + period) mod 2^32`, leaving `period` unchanged. -/
theorem C3_check_resync (due period now : Nat)
    (h1 : signedDiff32 due now ≤ 0) (h2 : signedDiff32 ((due : Int) + period) now ≤ 0) :
    PunctualTimeoutCheckAt now ⟨due, period⟩
      = (⟨(now + period) % 2 ^ 32, period⟩, true) := by
  have e1 := toInt32_sub32 due now
  have e2 := toInt32_sub32_add32 due period now
  simp only [PunctualTimeoutCheckAt, PunctualTimeoutCheck, e1, e2, if_pos h1, if_pos h2]
  rfl

/-- Witness of C3: `Set(t, 10)` at tick 0, `Check` at tick 1000 returns true and `due`
becomes 1010. -/
theorem C3_check_resync_witness :
    PunctualTimeoutSet 0 ⟨0, 0⟩ 10 = ⟨10, 10⟩ ∧
    PunctualTimeoutCheckAt 1000 ⟨10, 10⟩ = (⟨1010, 10⟩, true) :=
  ⟨by decide, C3_check_resync 10 10 1000 (by decide) (by decide)⟩

/-- C4. Not-expired check is a no-op: when the signed difference `due - now` is `> 0`,
`PunctualTimeoutCheck` returns false and leaves `due` and `period` unchanged. -/
theorem C4_check_not_expired (tmo : tTimeout) (now : Nat)
    (h : 0 < signedDiff32 tmo.due now) :
    PunctualTimeoutCheckAt now tmo = (tmo, false) := by
  have e1 := toInt32_sub32 tmo.due now
  simp only [PunctualTimeoutCheckAt, PunctualTimeoutCheck, e1, if_neg (not_le.mpr h)]

/-- Witness of C4: `Set(t, 100)` at tick 0, `Check` at tick 50 returns false and `due`
stays 100. -/
theorem C4_check_not_expired_witness :
    PunctualTimeoutSet 0 ⟨0, 0⟩ 100 = ⟨100, 100⟩ ∧
    PunctualTimeoutCheckAt 50 ⟨100, 100⟩ = (⟨100, 100⟩, false) :=
  ⟨by decide, C4_check_not_expired ⟨100, 100⟩ 50 (by decide)⟩

/-- C5. Edit preserves phase: after `PunctualTimeoutSet(t, p)` at tick `t0`,
`PunctualTimeoutEdit(t, q)` yields `period = q` and `due = (t0 + q) mod 2^32` (the edit
reads no tick, so the result does not depend on when it is called); in general Edit maps
`(due, period)` to `((due - period + q) mod 2^32, q)`; and `Set(t, 100)` at tick 0 followed
by `Edit(t, 50)` gives `due = 50`. -/
theorem C5_edit_preserves_phase :
    (∀ (t0 p q : Nat) (tmo : tTimeout),
      PunctualTimeoutEdit (PunctualTimeoutSet t0 tmo p) q = ⟨(t0 + q) % 2 ^ 32, q⟩) ∧
    (∀ (due period q : Nat),
      (((PunctualTimeoutEdit ⟨due, period⟩ q).due : Nat) : Int)
          = ((due : Int) - period + q) % 2 ^ 32 ∧
        (PunctualTimeoutEdit ⟨due, period⟩ q).period = q) ∧
    PunctualTimeoutEdit (PunctualTimeoutSet 0 ⟨0, 0⟩ 100) 50 = ⟨50, 50⟩ := by
  refine ⟨?_, ?_, by decide⟩
  · intro t0 p q tmo
    simp only [PunctualTimeoutEdit, PunctualTimeoutSet, sub32, add32, U32, tTimeout.mk.injEq,
      and_true]
    omega
  · intro due period q
    refine ⟨?_, rfl⟩
    simp only [PunctualTimeoutEdit, sub32, add32, U32]
    omega

/-! ## Theorems: the scan of `PunctualCreate` -/

theorem createLoop_claims {N : Nat} (hN : N ≤ 255) (handle : Option (Nat → Nat))
    (tbl : Fin N → tPunctualItem) (k : Fin N) (hk : (tbl k).handle = none)
    (hlt : ∀ j : Fin N, j < k → (tbl j).handle ≠ none) :
    ∀ fuel i, i ≤ k.val → k.val - i < fuel →
      createLoop handle fuel i tbl
        = some (Function.update tbl k { tbl k with handle := handle }, some (k.val : Int)) := by
  intro fuel
  induction fuel with
  | zero => intro i _ h; omega
  | succ n ih =>
    intro i hik hf
    have hiN : i < N := lt_of_le_of_lt hik k.isLt
    rw [createLoop, dif_pos hiN]
    by_cases hik2 : i = k.val
    · have e : (⟨i, hiN⟩ : Fin N) = k := Fin.ext hik2
      rw [e, hk, hik2]
      rfl
    · have hlt2 : (⟨i, hiN⟩ : Fin N) < k := by
        rw [Fin.lt_def]
        show i < k.val
        omega
      have hocc := hlt _ hlt2
      have hw : (i + 1) % U8 = i + 1 := by
        have := k.isLt
        unfold U8
        omega
      rw [if_neg (by simpa [Option.isNone_iff_eq_none] using hocc), hw]
      exact ih (i + 1) (by omega) (by omega)

theorem createLoop_full {N : Nat} (hN : N ≤ 255) (handle : Option (Nat → Nat))
    (tbl : Fin N → tPunctualItem) (hfull : ∀ j : Fin N, (tbl j).handle ≠ none) :
    ∀ fuel i, i ≤ N → N - i < fuel → createLoop handle fuel i tbl = some (tbl, none) := by
  intro fuel
  induction fuel with
  | zero => intro i _ h; omega
  | succ n ih =>
    intro i hiN hf
    rw [createLoop]
    by_cases h : i < N
    · have hw : (i + 1) % U8 = i + 1 := by
        unfold U8
        omega
      rw [dif_pos h, if_neg (by simpa [Option.isNone_iff_eq_none] using hfull ⟨i, h⟩), hw]
      exact ih (i + 1) (by omega) (by omega)
    · rw [dif_neg h]

theorem exists_first_free {N : Nat} (tbl : Fin N → tPunctualItem)
    (h : ∃ j : Fin N, (tbl j).handle = none) :
    ∃ k : Fin N, (tbl k).handle = none ∧ ∀ j : Fin N, j < k → (tbl j).handle ≠ none := by
  classical
  have hex : ∃ n, ∃ hn : n < N, (tbl ⟨n, hn⟩).handle = none := by
    obtain ⟨j, hj⟩ := h
    exact ⟨j.val, j.isLt, hj⟩
  obtain ⟨hn, hfree⟩ := Nat.find_spec hex
  refine ⟨⟨Nat.find hex, hn⟩, hfree, ?_⟩
  intro j hj hjfree
  exact Nat.find_min hex (show j.val < Nat.find hex from hj) ⟨j.isLt, hjfree⟩

theorem restore_intEn {N : Nat} (s : State N) (tbl : Fin N → tPunctualItem) :
    (if mIsIntEnabled s then mIntEnable { mIntDisable s with puncList := tbl }
      else { mIntDisable s with puncList := tbl }) = { s with puncList := tbl } := by
  cases s with
  | mk l ps c en pe => cases en <;> rfl

theorem PunctualCreate_of_free {N : Nat} (hN : N ≤ 255) (fuel : Nat) (hfuel : N < fuel)
    (s : State N) (handle : Option (Nat → Nat)) (k : Fin N)
    (hk : (s.puncList k).handle = none)
    (hlt : ∀ j : Fin N, j < k → (s.puncList j).handle ≠ none) :
    PunctualCreate fuel s handle
      = some ({ s with puncList :=
                  Function.update s.puncList k { s.puncList k with handle := handle } },
              some (k.val : Int)) := by
  have h := createLoop_claims hN handle s.puncList k hk hlt fuel 0 (Nat.zero_le _)
    (by have := k.isLt; omega)
  simp only [PunctualCreate]
  rw [show (mIntDisable s).puncList = s.puncList from rfl, h]
  simp only [restore_intEn]

theorem PunctualCreate_of_full {N : Nat} (hN : N ≤ 255) (fuel : Nat) (hfuel : N < fuel)
    (s : State N) (handle : Option (Nat → Nat))
    (hfull : ∀ j : Fin N, (s.puncList j).handle ≠ none) :
    PunctualCreate fuel s handle = some (s, none) := by
  have h := createLoop_full hN handle s.puncList hfull fuel 0 (Nat.zero_le _) (by omega)
  simp only [PunctualCreate]
  rw [show (mIntDisable s).puncList = s.puncList from rfl, h]
  simp only [restore_intEn]

/-! ## Theorems: writes through a pointer -/

theorem store_restore {N : Nat} (s : State N) (i : Int) (f : tPunctualItem → tPunctualItem) :
    (if mIsIntEnabled s then mIntEnable (store (mIntDisable s) i f)
      else store (mIntDisable s) i f) = store s i f := by
  cases s with
  | mk l ps c en pe =>
    by_cases h1 : 0 ≤ i ∧ i < (N : Int)
    · cases en <;> simp [store, mIsIntEnabled, mIntEnable, mIntDisable, h1]
    · by_cases h2 : i = (N : Int)
      · cases en <;> simp [store, mIsIntEnabled, mIntEnable, mIntDisable, h2]
      · cases en <;> simp [store, mIsIntEnabled, mIntEnable, mIntDisable, h1, h2]

theorem store_slot {N : Nat} (s : State N) (k : Fin N) (f : tPunctualItem → tPunctualItem) :
    store s (k.val : Int) f
      = { s with puncList := Function.update s.puncList k (f (s.puncList k)) } := by
  have hk : 0 ≤ (k.val : Int) ∧ (k.val : Int) < N := ⟨by omega, by have := k.isLt; omega⟩
  have e : (⟨(k.val : Int).toNat, by omega⟩ : Fin N) = k := Fin.ext (by simp)
  simp only [store, dif_pos hk, e]

theorem PunctualDestroy_eq {N : Nat} (s : State N) (i : Int) :
    PunctualDestroy s (some i)
      = if 0 ≤ i ∧ i ≤ (N : Int) then store s i (fun it => { it with handle := none })
        else s := by
  simp only [PunctualDestroy, store_restore]

theorem PunctualSend_eq {N : Nat} (s : State N) (i : Int) (data : Nat) :
    PunctualSend s (some i) data
      = if 0 ≤ i ∧ i ≤ (N : Int) then store s i (fun it => { it with param := data })
        else s := by
  simp only [PunctualSend, store_restore]

theorem PunctualDestroy_slot {N : Nat} (s : State N) (k : Fin N) :
    PunctualDestroy s (some (k.val : Int))
      = { s with puncList :=
            Function.update s.puncList k { s.puncList k with handle := none } } := by
  have hk : 0 ≤ (k.val : Int) ∧ (k.val : Int) ≤ N := ⟨by omega, by have := k.isLt; omega⟩
  rw [PunctualDestroy_eq, if_pos hk, store_slot]

theorem PunctualSend_slot {N : Nat} (s : State N) (k : Fin N) (data : Nat) :
    PunctualSend s (some (k.val : Int)) data
      = { s with puncList :=
            Function.update s.puncList k { s.puncList k with param := data } } := by
  have hk : 0 ≤ (k.val : Int) ∧ (k.val : Int) ≤ N := ⟨by omega, by have := k.isLt; omega⟩
  rw [PunctualSend_eq, if_pos hk, store_slot]

/-! ## Theorems: capacity and slot allocation -/

theorem run_creates_fill {N : Nat} (hN : N ≤ 255) (D fuel : Nat) (hfuel : N < fuel) :
    ∀ (fs : List (Nat → Nat)) (k : Nat) (s : State N), k + fs.length ≤ N →
      (∀ j : Fin N, (s.puncList j).handle ≠ none ↔ j.val < k) →
      ∃ s1 log, run D fuel s (fs.map fun g => Call.create (some g)) = some (s1, log) ∧
        log.map Prod.snd = (List.range' k fs.length).map (fun i : Nat => some (i : Int)) ∧
        (∀ j : Fin N, (s1.puncList j).handle ≠ none ↔ j.val < k + fs.length) := by
  intro fs
  induction fs with
  | nil =>
    intro k s _ hinv
    exact ⟨s, [], rfl, rfl, by simpa using hinv⟩
  | cons g gs ih =>
    intro k s hk hinv
    simp only [List.length_cons] at hk
    have hkN : k < N := by omega
    have hfree : (s.puncList ⟨k, hkN⟩).handle = none := by
      by_contra hne
      exact absurd ((hinv ⟨k, hkN⟩).mp hne) (lt_irrefl k)
    have hocc : ∀ j : Fin N, j < (⟨k, hkN⟩ : Fin N) → (s.puncList j).handle ≠ none :=
      fun j hj => (hinv j).mpr hj
    have hc := PunctualCreate_of_free hN fuel hfuel s (some g) ⟨k, hkN⟩ hfree hocc
    obtain ⟨s1, log, hrun, hlog, hinv1⟩ := ih (k + 1)
      { s with puncList :=
          Function.update s.puncList ⟨k, hkN⟩ { s.puncList ⟨k, hkN⟩ with handle := some g } }
      (by omega) (by
      intro j
      by_cases hj : j = ⟨k, hkN⟩
      · subst hj
        simp
      · have hjk : j.val ≠ k := fun h => hj (Fin.ext h)
        simp only [Function.update_noteq hj, hinv j]
        omega)
    refine ⟨s1, (s, some (k : Int)) :: log, ?_, ?_, ?_⟩
    · simp only [List.map_cons, run, step, hc, hrun]
    · simp only [List.map_cons, hlog, List.length_cons, List.range'_succ]
    · intro j
      rw [hinv1 j, List.length_cons]
      omega

/-- C6. Capacity (for a table of `N ≤ 255` slots, the range of the `uint8_t` scan counter):
`PunctualCreate` with a non-absent handler returns and its result is `NULL` if and only if
every slot has a non-absent handle, in which case the state is unchanged; and from the
state produced by `PunctualInit`, `N` consecutive calls with non-absent handlers return
the slots `0 .. N-1` and the next call returns `NULL`. -/
theorem C6_create_capacity (N : Nat) (hN : N ≤ 255) (D fuel : Nat) (hfuel : N < fuel)
    (s : State N) (f : Nat → Nat) (s0 : State N) (fs : List (Nat → Nat))
    (hlen : fs.length = N) (g : Nat → Nat) :
    (∃ s1 ptr, PunctualCreate fuel s (some f) = some (s1, ptr) ∧
      (ptr = none ↔ ∀ j : Fin N, (s.puncList j).handle ≠ none) ∧
      (ptr = none → s1 = s)) ∧
    (∃ s1 log, run D fuel (PunctualInit s0) (fs.map fun h => Call.create (some h))
          = some (s1, log) ∧
      log.map Prod.snd = (List.range' 0 N).map (fun i : Nat => some (i : Int)) ∧
      PunctualCreate fuel s1 (some g) = some (s1, none)) := by
  constructor
  · by_cases hfull : ∀ j : Fin N, (s.puncList j).handle ≠ none
    · exact ⟨s, none, PunctualCreate_of_full hN fuel hfuel s _ hfull, by simp [hfull],
        fun _ => rfl⟩
    · have hex : ∃ j : Fin N, (s.puncList j).handle = none := by
        by_contra hno
        exact hfull fun j hj => hno ⟨j, hj⟩
      obtain ⟨k, hk, hlt⟩ := exists_first_free s.puncList hex
      refine ⟨_, _, PunctualCreate_of_free hN fuel hfuel s _ k hk hlt, ?_, ?_⟩
      · simp [hfull]
      · intro h
        simp at h
  · obtain ⟨s1, log, hrun, hlog, hinv⟩ :=
      run_creates_fill hN D fuel hfuel fs 0 (PunctualInit s0) (by omega) (by
        intro j
        simp [PunctualInit])
    refine ⟨s1, log, hrun, by rw [hlog, hlen], ?_⟩
    apply PunctualCreate_of_full hN fuel hfuel
    intro j
    rw [hinv j]
    have := j.isLt
    omega

/-- Witness of C6 for the default capacity `N = 4`: four calls from the initialised start-up
state return slots `0, 1, 2, 3`, the fifth returns `NULL`. -/
theorem C6_create_capacity_witness :
    (4 ≤ 255 ∧ 4 < 5 ∧ ([id, id, id, id] : List (Nat → Nat)).length = 4) ∧
    ∃ s1 log, run 1 5 (PunctualInit (zeroState 4))
          (([id, id, id, id] : List (Nat → Nat)).map fun h => Call.create (some h))
        = some (s1, log) ∧
      log.map Prod.snd = (List.range' 0 4).map (fun i : Nat => some (i : Int)) ∧
      PunctualCreate 5 s1 (some id) = some (s1, none) :=
  ⟨⟨by decide, by decide, rfl⟩,
    (C6_create_capacity 4 (by decide) 1 5 (by decide) (zeroState 4) id (zeroState 4)
      [id, id, id, id] rfl id).2⟩

/-- C7. First-free-slot claim (for a table of `N ≤ 255` slots): in a state with a free slot,
`PunctualCreate` with a non-absent handler `f` returns the pointer to the lowest-index slot
`k` whose handle is absent, and the new state is the old one with only the handle of slot
`k` set to `f` (result and param of slot `k`, the other slots, postscaler and counter are
those of the old state). After `PunctualDestroy` of slot `i` in a full table the next
`PunctualCreate` returns slot `i`. -/
theorem C7_create_first_free (N : Nat) (hN : N ≤ 255) (fuel : Nat) (hfuel : N < fuel)
    (s : State N) (f : Nat → Nat) (hfree : ∃ j : Fin N, (s.puncList j).handle = none)
    (t : State N) (hfull : ∀ j : Fin N, (t.puncList j).handle ≠ none) (i : Fin N)
    (g : Nat → Nat) :
    (∃ k : Fin N, (s.puncList k).handle = none ∧
      (∀ j : Fin N, j < k → (s.puncList j).handle ≠ none) ∧
      PunctualCreate fuel s (some f)
        = some ({ s with puncList :=
                    Function.update s.puncList k { s.puncList k with handle := some f } },
                some (k.val : Int))) ∧
    PunctualCreate fuel (PunctualDestroy t (some (i.val : Int))) (some g)
      = some ({ t with puncList :=
                  Function.update t.puncList i { t.puncList i with handle := some g } },
              some (i.val : Int)) := by
  constructor
  · obtain ⟨k, hk, hlt⟩ := exists_first_free s.puncList hfree
    exact ⟨k, hk, hlt, PunctualCreate_of_free hN fuel hfuel s _ k hk hlt⟩
  · rw [PunctualDestroy_slot]
    have h := PunctualCreate_of_free hN fuel hfuel
      { t with puncList := Function.update t.puncList i { t.puncList i with handle := none } }
      (some g) i (by simp) (by
        intro j hj
        have hne : j ≠ i := ne_of_lt hj
        simpa [Function.update_noteq hne] using hfull j)
    rw [h]
    simp

/-- Witness of C7 for the default capacity `N = 4`: the start-up table, and a full table
from which slot 2 is destroyed. -/
theorem C7_create_first_free_witness :
    (4 ≤ 255 ∧ 4 < 5) ∧
    (∃ j : Fin 4, ((zeroState 4).puncList j).handle = none) ∧
    (∀ j : Fin 4, ((fullState 4 id).puncList j).handle ≠ none) ∧
    ∃ t1, PunctualCreate 5 (PunctualDestroy (fullState 4 id) (some ((2 : Fin 4).val : Int)))
        (some id) = some (t1, some ((2 : Fin 4).val : Int)) :=
  ⟨⟨by decide, by decide⟩, ⟨0, rfl⟩, fun _ => by simp [fullState],
    ⟨_, (C7_create_first_free 4 (by decide) 5 (by decide) (zeroState 4) id ⟨0, rfl⟩
      (fullState 4 id) (fun _ => by simp [fullState]) 2 id).2⟩⟩

/-! ## Theorems: the dispatch loop -/

theorem callSlot_handle (it : tPunctualItem) : (callSlot it).handle = it.handle := by
  unfold callSlot
  split <;> simp_all

theorem isrLoop_apply {N : Nat} (tbl : Fin N → tPunctualItem) (k : Nat) (j : Fin N) :
    isrLoop tbl k j = if j.val < k then callSlot (tbl j) else tbl j := by
  induction k with
  | zero => simp [isrLoop]
  | succ n ih =>
    rw [isrLoop]
    by_cases h : n < N
    · rw [dif_pos h]
      by_cases hj : j = ⟨n, h⟩
      · subst hj
        simp [ih]
      · have hjn : j.val ≠ n := fun e => hj (Fin.ext e)
        rw [Function.update_noteq hj, ih]
        by_cases hlt : j.val < n
        · rw [if_pos hlt, if_pos (by omega)]
        · rw [if_neg hlt, if_neg (by omega)]
    · rw [dif_neg h, ih]
      have := j.isLt
      rw [if_pos (by omega), if_pos (by omega)]

theorem isrLoop_all {N : Nat} (tbl : Fin N → tPunctualItem) (j : Fin N) :
    isrLoop tbl N j = callSlot (tbl j) := by
  rw [isrLoop_apply, if_pos j.isLt]

theorem PunctualISR_handle {N : Nat} (D : Nat) (s : State N) (j : Fin N) :
    ((PunctualISR D s).puncList j).handle = (s.puncList j).handle := by
  simp only [PunctualISR]
  split_ifs
  · simp only [dispatchPass, isrLoop_all, callSlot_handle]
  · rfl

theorem store_handle {N : Nat} (s : State N) (i : Int) (f : tPunctualItem → tPunctualItem)
    (hf : ∀ it, (f it).handle = it.handle) (j : Fin N) :
    ((store s i f).puncList j).handle = (s.puncList j).handle := by
  unfold store
  split_ifs with h1 h2
  · by_cases hj : j = ⟨i.toNat, by omega⟩
    · subst hj
      simp [hf]
    · simp [Function.update_noteq hj]
  · rfl
  · rfl

theorem PunctualSend_handle {N : Nat} (s : State N) (ptr : tPunctualItemPtr) (data : Nat)
    (j : Fin N) : ((PunctualSend s ptr data).puncList j).handle = (s.puncList j).handle := by
  cases ptr with
  | none => rfl
  | some i =>
    rw [PunctualSend_eq]
    split_ifs
    · exact store_handle s i (fun it => { it with param := data }) (fun _ => rfl) j
    · rfl

theorem PunctualISR_pass {N : Nat} (D : Nat) (s : State N)
    (h : D ≤ add32 s.puncPostscaler 1) : PunctualISR D s = dispatchPass s := by
  simp only [PunctualISR, if_pos h]
  rfl

theorem load_slot {N : Nat} (s : State N) (k : Fin N) :
    load s (some (k.val : Int)) = some (s.puncList k) := by
  have hk : 0 ≤ (k.val : Int) ∧ (k.val : Int) < N := ⟨by omega, by have := k.isLt; omega⟩
  have e : (⟨(k.val : Int).toNat, by omega⟩ : Fin N) = k := Fin.ext (by simp)
  simp only [load, dif_pos hk, e]

theorem PunctualReceive_slot {N : Nat} (fuel : Nat) (s : State N) (k : Fin N) :
    PunctualReceive (fuel + 1) s (some (k.val : Int)) = some (s.puncList k).result := by
  simp [PunctualReceive, load_slot]

/-! ## Theorems: sequences of calls without destroy -/

theorem IsFreeSlot_of_handle_eq {N : Nat} (s s1 : State N)
    (h : ∀ j : Fin N, (s1.puncList j).handle = (s.puncList j).handle)
    (ptr : tPunctualItemPtr) (hfree : IsFreeSlot s1 ptr) : IsFreeSlot s ptr := by
  obtain ⟨k, hk, hnone⟩ := hfree
  exact ⟨k, hk, by rw [← h k]; exact hnone⟩

theorem run_keepsSlots {N : Nat} (hN : N ≤ 255) (D fuel : Nat) (hfuel : N < fuel) :
    ∀ (calls : List Call) (s : State N), (∀ c ∈ calls, c.keepsSlots = true) →
      ∃ s1 log, run D fuel s calls = some (s1, log) ∧
        (∀ e ∈ log, e.2 ≠ none → IsFreeSlot e.1 e.2) ∧
        (log.filterMap Prod.snd).Nodup ∧
        (∀ i ∈ log.filterMap Prod.snd, IsFreeSlot s (some i)) := by
  intro calls
  induction calls with
  | nil =>
    intro s _
    exact ⟨s, [], rfl, by simp, by simp, by simp⟩
  | cons c cs ih =>
    intro s hall
    have hc : c.keepsSlots = true := hall c (List.mem_cons_self _ _)
    have hcs : ∀ c ∈ cs, c.keepsSlots = true := fun c hc => hall c (List.mem_cons_of_mem _ hc)
    cases c with
    | init => exact absurd hc (by simp [Call.keepsSlots])
    | destroy ptr => exact absurd hc (by simp [Call.keepsSlots])
    | isr =>
      obtain ⟨s1, log, hrun, hfree, hnd, hinit⟩ := ih (PunctualISR D s) hcs
      refine ⟨s1, log, by simp only [run, step, hrun], hfree, hnd, ?_⟩
      intro i hi
      exact IsFreeSlot_of_handle_eq s _ (PunctualISR_handle D s) _ (hinit i hi)
    | send ptr data =>
      obtain ⟨s1, log, hrun, hfree, hnd, hinit⟩ := ih (PunctualSend s ptr data) hcs
      refine ⟨s1, log, by simp only [run, step, hrun], hfree, hnd, ?_⟩
      intro i hi
      exact IsFreeSlot_of_handle_eq s _ (PunctualSend_handle s ptr data) _ (hinit i hi)
    | create handle =>
      cases handle with
      | none => exact absurd hc (by simp [Call.keepsSlots])
      | some f =>
        by_cases hfull : ∀ j : Fin N, (s.puncList j).handle ≠ none
        · have hcr := PunctualCreate_of_full hN fuel hfuel s (some f) hfull
          obtain ⟨s1, log, hrun, hfree, hnd, hinit⟩ := ih s hcs
          refine ⟨s1, (s, none) :: log, by simp only [run, step, hcr, hrun], ?_, ?_, ?_⟩
          · intro e he hne
            rcases List.mem_cons.mp he with rfl | he
            · exact absurd rfl hne
            · exact hfree e he hne
          · simpa using hnd
          · simpa using hinit
        · have hex : ∃ j : Fin N, (s.puncList j).handle = none := by
            by_contra hno
            exact hfull fun j hj => hno ⟨j, hj⟩
          obtain ⟨k, hk, hlt⟩ := exists_first_free s.puncList hex
          have hcr := PunctualCreate_of_free hN fuel hfuel s (some f) k hk hlt
          obtain ⟨s1, log, hrun, hfree, hnd, hinit⟩ := ih
            { s with puncList :=
                Function.update s.puncList k { s.puncList k with handle := some f } } hcs
          have hne : ∀ i ∈ log.filterMap Prod.snd, i ≠ (k.val : Int) := by
            intro i hi hik
            obtain ⟨k1, hk1, hnone⟩ := hinit i hi
            have hkk : k1 = k := by
              apply Fin.ext
              have h2 : (k1.val : Int) = (k.val : Int) := by
                rw [← hik]
                exact (Option.some.inj hk1).symm
              exact_mod_cast h2
            subst hkk
            simp at hnone
          have hfm : List.filterMap Prod.snd ((s, some (k.val : Int)) :: log)
              = (k.val : Int) :: List.filterMap Prod.snd log := by
            simp
          refine ⟨s1, (s, some (k.val : Int)) :: log,
            by simp only [run, step, hcr, hrun], ?_, ?_, ?_⟩
          · intro e he hnn
            rcases List.mem_cons.mp he with rfl | he
            · exact ⟨k, rfl, hk⟩
            · exact hfree e he hnn
          · rw [hfm, List.nodup_cons]
            exact ⟨fun hmem => hne _ hmem rfl, hnd⟩
          · intro i hi
            rw [hfm] at hi
            rcases List.mem_cons.mp hi with rfl | hi
            · exact ⟨k, rfl, hk⟩
            · obtain ⟨k1, hk1, hnone⟩ := hinit i hi
              have hkk : k1 ≠ k := by
                intro e
                subst e
                simp at hnone
              exact ⟨k1, hk1, by simpa [Function.update_noteq hkk] using hnone⟩

/-- C8. No two live tasks share a slot (for a table of `N ≤ 255` slots): for every sequence
of `PunctualCreate` calls with non-absent handlers, `PunctualSend` calls and `PunctualISR`
calls, run from any state, every call returns, the pointers returned by the successful
`PunctualCreate` calls are pairwise distinct, and each designates a slot that was free in
the state the call was made in. -/
theorem C8_created_slots_distinct (N : Nat) (hN : N ≤ 255) (D fuel : Nat) (hfuel : N < fuel)
    (s : State N) (calls : List Call) (hcalls : ∀ c ∈ calls, c.keepsSlots = true) :
    ∃ s1 log, run D fuel s calls = some (s1, log) ∧
      (log.filterMap Prod.snd).Nodup ∧
      (∀ e ∈ log, e.2 ≠ none → IsFreeSlot e.1 e.2) := by
  obtain ⟨s1, log, hrun, hfree, hnd, _⟩ := run_keepsSlots hN D fuel hfuel calls s hcalls
  exact ⟨s1, log, hrun, hnd, hfree⟩

/-- Witness of C8 for the default capacity `N = 4`: create, send, dispatch, create, run from
the start-up state. -/
theorem C8_created_slots_distinct_witness :
    (4 ≤ 255 ∧ 4 < 5 ∧
      ∀ c ∈ [Call.create (some id), Call.send (some 0) 7, Call.isr, Call.create (some id)],
        c.keepsSlots = true) ∧
    ∃ s1 log, run 1 5 (zeroState 4)
        [Call.create (some id), Call.send (some 0) 7, Call.isr, Call.create (some id)]
          = some (s1, log) ∧
      (log.filterMap Prod.snd).Nodup ∧
      (∀ e ∈ log, e.2 ≠ none → IsFreeSlot e.1 e.2) :=
  ⟨⟨by decide, by decide, by simp [Call.keepsSlots]⟩,
    C8_created_slots_distinct 4 (by decide) 1 5 (by decide) (zeroState 4)
      [Call.create (some id), Call.send (some 0) 7, Call.isr, Call.create (some id)]
      (by simp [Call.keepsSlots])⟩

/-! ## Theorems: parameter delivery -/

/-- C9. Parameter delivery exactly once: for an occupied slot `k` with handler `f` and every
parameter `X`, after `PunctualSend(ref, X)` and one dispatch pass `PunctualReceive(ref)`
returns `f X` and the param of the slot is absent; after a second dispatch pass with no
send in between it returns `f 0`, the handler called with `NULL`. A dispatch pass is what
`PunctualISR` does whenever the incremented postscaler has reached the divisor. -/
theorem C9_parameter_delivery (N : Nat) (s : State N) (k : Fin N) (f : Nat → Nat)
    (X fuel : Nat) (hocc : (s.puncList k).handle = some f) :
    PunctualReceive (fuel + 1) (dispatchPass (PunctualSend s (some (k.val : Int)) X))
        (some (k.val : Int)) = some (f X) ∧
    ((dispatchPass (PunctualSend s (some (k.val : Int)) X)).puncList k).param = 0 ∧
    PunctualReceive (fuel + 1)
        (dispatchPass (dispatchPass (PunctualSend s (some (k.val : Int)) X)))
        (some (k.val : Int)) = some (f 0) ∧
    (∀ (D : Nat) (t : State N), D ≤ add32 t.puncPostscaler 1 →
      PunctualISR D t = dispatchPass t) := by
  refine ⟨?_, ?_, ?_, fun D t h => PunctualISR_pass D t h⟩
  · simp [PunctualReceive_slot, dispatchPass, isrLoop_all, PunctualSend_slot, callSlot, hocc]
  · simp [dispatchPass, isrLoop_all, PunctualSend_slot, callSlot, hocc]
  · simp [PunctualReceive_slot, dispatchPass, isrLoop_all, PunctualSend_slot, callSlot, hocc]

/-- Witness of C9: slot 1 of a table of four holds the handler `x ↦ x + 1`; sending 41
makes the next pass produce 42 and the pass after it produce 1. -/
theorem C9_parameter_delivery_witness :
    PunctualReceive 1
        (dispatchPass (PunctualSend
          (fullState 4 (fun x => x + 1))
          (some ((1 : Fin 4).val : Int)) 41))
        (some ((1 : Fin 4).val : Int)) = some (41 + 1) ∧
    PunctualReceive 1
        (dispatchPass (dispatchPass (PunctualSend
          (fullState 4 (fun x => x + 1))
          (some ((1 : Fin 4).val : Int)) 41)))
        (some ((1 : Fin 4).val : Int)) = some (0 + 1) :=
  have h := C9_parameter_delivery 4
    (fullState 4 (fun x => x + 1)) 1
    (fun x => x + 1) 41 0 rfl
  ⟨h.1, h.2.2.1⟩

/-! ## Theorems: the consistency check of `PunctualDestroy` and `PunctualSend` -/

theorem PunctualDestroy_outside {N : Nat} (s : State N) (ptr : tPunctualItemPtr)
    (h : ∀ i : Int, ptr = some i → i < 0 ∨ (N : Int) < i) : PunctualDestroy s ptr = s := by
  cases ptr with
  | none => rfl
  | some i =>
    rw [PunctualDestroy_eq, if_neg]
    have := h i rfl
    omega

theorem PunctualSend_outside {N : Nat} (s : State N) (ptr : tPunctualItemPtr) (data : Nat)
    (h : ∀ i : Int, ptr = some i → i < 0 ∨ (N : Int) < i) : PunctualSend s ptr data = s := by
  cases ptr with
  | none => rfl
  | some i =>
    rw [PunctualSend_eq, if_neg]
    have := h i rfl
    omega

/-- C10, evaluation of the code at the one-past-the-end pointer
`&puncList[PUNCTUAL_MAX_TASKS]` for the default capacity 4: the pointer passes the
consistency check, so `PunctualDestroy` clears the handle field of the storage behind the
table and `PunctualSend` writes its param field; the state is not left unchanged. -/
theorem C10_past_end_pointer_is_written :
    (PunctualDestroy ({ zeroState 4 with pastEnd := ⟨some id, 0, 0⟩ } : State 4) (some 4)).pastEnd.handle
        = none ∧
    ({ zeroState 4 with pastEnd := ⟨some id, 0, 0⟩ } : State 4).pastEnd.handle ≠ none ∧
    PunctualDestroy ({ zeroState 4 with pastEnd := ⟨some id, 0, 0⟩ } : State 4) (some 4)
      ≠ ({ zeroState 4 with pastEnd := ⟨some id, 0, 0⟩ } : State 4) ∧
    (PunctualSend (zeroState 4) (some 4) 5).pastEnd.param = 5 ∧
    (zeroState 4).pastEnd.param = 0 ∧
    PunctualSend (zeroState 4) (some 4) 5 ≠ zeroState 4 := by
  refine ⟨rfl, by simp, ?_, rfl, rfl, ?_⟩
  · intro h
    have h2 := congrArg (fun t => t.pastEnd.handle.isSome) h
    simp [PunctualDestroy_eq, store] at h2
  · intro h
    have h2 := congrArg (fun t => t.pastEnd.param) h
    simp [PunctualSend_eq, store, zeroState] at h2

/-! ## Theorems: destroy -/

theorem PunctualISR_free_slot {N : Nat} (D : Nat) (s : State N) (k : Fin N)
    (h : (s.puncList k).handle = none) : (PunctualISR D s).puncList k = s.puncList k := by
  simp only [PunctualISR]
  split_ifs
  · simp only [dispatchPass, isrLoop_all, callSlot, h]
  · rfl

theorem iterate_ISR_free_slot {N : Nat} (D : Nat) (k : Fin N) :
    ∀ (n : Nat) (s : State N), (s.puncList k).handle = none →
      (Nat.iterate (PunctualISR D) n s).puncList k = s.puncList k := by
  intro n
  induction n with
  | zero => intro s _; rfl
  | succ n ih =>
    intro s h
    have h1 := PunctualISR_free_slot D s k h
    rw [Function.iterate_succ_apply, ih (PunctualISR D s) (by rw [h1]; exact h), h1]

/-- C11. Destroy idempotence: for a valid slot reference, `PunctualDestroy` yields the old
state with only the handle of that slot set to absent (result and param of the slot, all
other slots, postscaler, generation counter, interrupt flag unchanged), and a second
`PunctualDestroy` of the same reference yields exactly the state of the first. -/
theorem C11_destroy_idempotent (N : Nat) (s : State N) (k : Fin N) :
    PunctualDestroy s (some (k.val : Int))
      = { s with puncList :=
            Function.update s.puncList k { s.puncList k with handle := none } } ∧
    PunctualDestroy (PunctualDestroy s (some (k.val : Int))) (some (k.val : Int))
      = PunctualDestroy s (some (k.val : Int)) := by
  refine ⟨PunctualDestroy_slot s k, ?_⟩
  rw [PunctualDestroy_slot, PunctualDestroy_slot]
  simp

/-- C12. A destroyed slot is never dispatched: after `PunctualDestroy` of a valid slot
reference, any number `n` of `PunctualISR` calls (for any divisor `D`) leaves the slot as
`PunctualDestroy` left it: handle absent, result and param those the slot had before the
`PunctualDestroy`. -/
theorem C12_destroyed_slot_not_dispatched (N : Nat) (D n : Nat) (s : State N) (k : Fin N) :
    (Nat.iterate (PunctualISR D) n (PunctualDestroy s (some (k.val : Int)))).puncList k
      = { s.puncList k with handle := none } := by
  rw [iterate_ISR_free_slot D k n _ (by simp [PunctualDestroy_slot])]
  simp [PunctualDestroy_slot]

/-! ## Theorems: the generation counter -/

set_option maxRecDepth 100000 in
/-- C14, the claim as stated fails: with `puncCnt = 255` a dispatching `PunctualISR` call
(divisor 1) leaves the counter at 0, which is not greater than 255; and 256 dispatching
calls from the start-up state bring the counter back to the value it had. -/
theorem C14_counter_wraps_counterexample :
    (PunctualISR 1 ({ zeroState 4 with puncCnt := 255 } : State 4)).puncCnt = 0 ∧
    ¬ (({ zeroState 4 with puncCnt := 255 } : State 4).puncCnt
        < (PunctualISR 1 ({ zeroState 4 with puncCnt := 255 } : State 4)).puncCnt) ∧
    (Nat.iterate (PunctualISR 1) 256 (zeroState 4)).puncCnt = (zeroState 4).puncCnt := by
  refine ⟨by decide, by decide, by decide⟩

theorem iterate_dispatchPass_puncCnt {N : Nat} :
    ∀ (n : Nat) (s : State N), s.puncCnt < 256 →
      (Nat.iterate dispatchPass n s).puncCnt = (s.puncCnt + n) % 256 := by
  intro n
  induction n with
  | zero =>
    intro s h
    simp only [Function.iterate_zero, id_eq, Nat.add_zero]
    omega
  | succ n ih =>
    intro s h
    have h1 : (dispatchPass s).puncCnt = (s.puncCnt + 1) % 256 := rfl
    rw [Function.iterate_succ_apply, ih (dispatchPass s) (by rw [h1]; omega), h1]
    omega

/-- C14 as amended. The generation counter is a `uint8_t`: a dispatching `PunctualISR` call
replaces it by `(old + 1) mod 256`, which differs from the old value and is strictly greater
whenever the old value is below 255 (from 255 it wraps to 0); two reads separated by `n`
dispatch passes with `1 ≤ n ≤ 255` differ. -/
theorem C14_counter_increments_mod_256 (N : Nat) (D : Nat) (s : State N)
    (hcnt : s.puncCnt < 256) (hpass : D ≤ add32 s.puncPostscaler 1) (n : Nat)
    (hn0 : 0 < n) (hn : n < 256) :
    (PunctualISR D s).puncCnt = (s.puncCnt + 1) % 256 ∧
    (PunctualISR D s).puncCnt ≠ s.puncCnt ∧
    (s.puncCnt < 255 → s.puncCnt < (PunctualISR D s).puncCnt) ∧
    (s.puncCnt = 255 → (PunctualISR D s).puncCnt = 0) ∧
    (Nat.iterate dispatchPass n s).puncCnt ≠ s.puncCnt := by
  have h1 : (PunctualISR D s).puncCnt = (s.puncCnt + 1) % 256 := by
    rw [PunctualISR_pass D s hpass]
    rfl
  rw [h1, iterate_dispatchPass_puncCnt n s hcnt]
  refine ⟨rfl, ?_, ?_, ?_, ?_⟩ <;> omega

/-- Witness of C14 as amended: the start-up state of a table of four, divisor 1, and two
reads 255 passes apart. -/
theorem C14_counter_increments_mod_256_witness :
    ((zeroState 4).puncCnt < 256 ∧ 1 ≤ add32 (zeroState 4).puncPostscaler 1 ∧
      0 < 255 ∧ 255 < 256) ∧
    (PunctualISR 1 (zeroState 4)).puncCnt = ((zeroState 4).puncCnt + 1) % 256 ∧
    (PunctualISR 1 (zeroState 4)).puncCnt ≠ (zeroState 4).puncCnt ∧
    ((zeroState 4).puncCnt < 255 →
      (zeroState 4).puncCnt < (PunctualISR 1 (zeroState 4)).puncCnt) ∧
    ((zeroState 4).puncCnt = 255 → (PunctualISR 1 (zeroState 4)).puncCnt = 0) ∧
    (Nat.iterate dispatchPass 255 (zeroState 4)).puncCnt ≠ (zeroState 4).puncCnt :=
  ⟨⟨by decide, by decide, by decide, by decide⟩,
    C14_counter_increments_mod_256 4 1 (zeroState 4) (by decide) (by decide) 255 (by decide)
      (by decide)⟩

/-! ## Theorems: dispatch pass -/

/-- C18. Dispatch pass semantics: when `PunctualISR` performs a pass (the incremented
postscaler has reached the divisor `D`), afterwards every slot with a non-absent handle `h`
and param `x` has result `h x` and param absent, every slot with an absent handle is
unchanged, no handle has changed, the postscaler is 0 and the generation counter is its
old value plus 1 modulo 256. -/
theorem C18_dispatch_pass (N : Nat) (D : Nat) (s : State N)
    (hpass : D ≤ add32 s.puncPostscaler 1) :
    (∀ (k : Fin N) (h : Nat → Nat), (s.puncList k).handle = some h →
      (PunctualISR D s).puncList k = ⟨some h, h (s.puncList k).param, 0⟩) ∧
    (∀ k : Fin N, (s.puncList k).handle = none →
      (PunctualISR D s).puncList k = s.puncList k) ∧
    (∀ k : Fin N, ((PunctualISR D s).puncList k).handle = (s.puncList k).handle) ∧
    (PunctualISR D s).puncPostscaler = 0 ∧
    (PunctualISR D s).puncCnt = (s.puncCnt + 1) % 256 := by
  refine ⟨?_, ?_, PunctualISR_handle D s, ?_, ?_⟩
  · intro k h hk
    rw [PunctualISR_pass D s hpass]
    simp only [dispatchPass, isrLoop_all, callSlot, hk]
  · intro k hk
    exact PunctualISR_free_slot D s k hk
  · rw [PunctualISR_pass D s hpass]
    rfl
  · rw [PunctualISR_pass D s hpass]
    rfl

/-- Witness of C18: a table of four slots holding the handler `x ↦ x + 1`, divisor 1. -/
theorem C18_dispatch_pass_witness :
    1 ≤ add32 (fullState 4 (fun x => x + 1)).puncPostscaler 1 ∧
    (PunctualISR 1 (fullState 4 (fun x => x + 1))).puncPostscaler = 0 ∧
    (PunctualISR 1 (fullState 4 (fun x => x + 1))).puncCnt
      = ((fullState 4 (fun x => x + 1)).puncCnt + 1) % 256 :=
  ⟨by decide, (C18_dispatch_pass 4 1 (fullState 4 (fun x => x + 1)) (by decide)).2.2.2⟩

/-! ## Theorems: the timeout after an expiry -/

theorem PunctualTimeoutCheckAt_eq (due period now : Nat) :
    PunctualTimeoutCheckAt now ⟨due, period⟩
      = if signedDiff32 due now ≤ 0 then
          if signedDiff32 ((due : Int) + period) now ≤ 0 then
            (⟨(now + period) % 2 ^ 32, period⟩, true)
          else (⟨(due + period) % 2 ^ 32, period⟩, true)
        else (⟨due, period⟩, false) := by
  simp only [PunctualTimeoutCheckAt, PunctualTimeoutCheck, toInt32_sub32_add32]
  simp only [toInt32_sub32]
  rfl

theorem signedDiff32_resync (period now : Nat) (hp : period < 2 ^ 31) :
    signedDiff32 (((now + period) % 2 ^ 32 : Nat) : Int) now = period := by
  simp only [signedDiff32, Int.bmod_def]
  norm_num
  split_ifs <;> omega

theorem signedDiff32_reload (due period now : Nat) (hp : period < 2 ^ 31)
    (h1 : signedDiff32 due now ≤ 0) :
    signedDiff32 (((due + period) % 2 ^ 32 : Nat) : Int) now
        = signedDiff32 ((due : Int) + period) now ∧
      signedDiff32 ((due : Int) + period) now ≤ period := by
  simp only [signedDiff32, Int.bmod_def] at h1 ⊢
  norm_num at h1 ⊢
  split_ifs at h1 ⊢ <;> omega

/-- C19. Next expiry is at most one period ahead: for `0 < period < 2^31` and every tick
`now`, if `PunctualTimeoutCheck` returns true then the signed 32-bit difference
`d = due - now` of the updated timeout satisfies `0 < d ≤ period`, and a second
`PunctualTimeoutCheck` at the same tick returns false. -/
theorem C19_next_expiry_within_period (due period now : Nat)
    (hp0 : 0 < period) (hp : period < 2 ^ 31)
    (htrue : (PunctualTimeoutCheckAt now ⟨due, period⟩).2 = true) :
    0 < signedDiff32 (PunctualTimeoutCheckAt now ⟨due, period⟩).1.due now ∧
    signedDiff32 (PunctualTimeoutCheckAt now ⟨due, period⟩).1.due now ≤ period ∧
    (PunctualTimeoutCheckAt now (PunctualTimeoutCheckAt now ⟨due, period⟩).1).2 = false := by
  rw [PunctualTimeoutCheckAt_eq] at htrue ⊢
  by_cases h1 : signedDiff32 due now ≤ 0
  · by_cases h2 : signedDiff32 ((due : Int) + period) now ≤ 0
    · simp only [if_pos h1, if_pos h2]
      have e := signedDiff32_resync period now hp
      have hpos : ¬ signedDiff32 (((now + period) % 2 ^ 32 : Nat) : Int) now ≤ 0 := by
        rw [e]
        omega
      rw [PunctualTimeoutCheckAt_eq, if_neg hpos, e]
      exact ⟨by omega, le_refl _, rfl⟩
    · simp only [if_pos h1, if_neg h2]
      obtain ⟨e, hle⟩ := signedDiff32_reload due period now hp h1
      have hpos : ¬ signedDiff32 (((due + period) % 2 ^ 32 : Nat) : Int) now ≤ 0 := by
        rw [e]
        exact h2
      rw [PunctualTimeoutCheckAt_eq, if_neg hpos, e]
      exact ⟨not_le.mp h2, hle, rfl⟩
  · simp [if_neg h1] at htrue

/-- Witness of C19: period 100 armed at tick 0 and checked at tick 100 (reload), where the
new difference is exactly one period. -/
theorem C19_next_expiry_within_period_witness :
    (0 < 100 ∧ 100 < 2 ^ 31 ∧ (PunctualTimeoutCheckAt 100 ⟨100, 100⟩).2 = true) ∧
    0 < signedDiff32 (PunctualTimeoutCheckAt 100 ⟨100, 100⟩).1.due 100 ∧
    signedDiff32 (PunctualTimeoutCheckAt 100 ⟨100, 100⟩).1.due 100 ≤ 100 ∧
    (PunctualTimeoutCheckAt 100 (PunctualTimeoutCheckAt 100 ⟨100, 100⟩).1).2 = false :=
  ⟨⟨by decide, by decide, by decide⟩,
    C19_next_expiry_within_period 100 100 100 (by decide) (by decide) (by decide)⟩

/-! ## Theorems: slot reuse -/

/-- C20. Stale parameter survives slot reuse (table of `N ≤ 255` slots): for a valid slot
reference `k` below which every slot is occupied, and every parameter `X`, the sequence
`Send(ref, X); Destroy(ref); Create(g)` returns the same slot, and one dispatch pass then
calls `g` with `X`, so that `PunctualReceive` gives `g X`; the same holds for
`Destroy(ref); Send(ref, X); Create(g)`. -/
theorem C20_stale_param_survives_reuse (N : Nat) (hN : N ≤ 255) (fuel r : Nat)
    (hfuel : N < fuel) (s : State N) (k : Fin N) (X : Nat) (g : Nat → Nat)
    (hlow : ∀ j : Fin N, j < k → (s.puncList j).handle ≠ none) :
    (∃ s1, PunctualCreate fuel
          (PunctualDestroy (PunctualSend s (some (k.val : Int)) X) (some (k.val : Int)))
          (some g) = some (s1, some (k.val : Int)) ∧
      PunctualReceive (r + 1) (dispatchPass s1) (some (k.val : Int)) = some (g X)) ∧
    (∃ s2, PunctualCreate fuel
          (PunctualSend (PunctualDestroy s (some (k.val : Int))) (some (k.val : Int)) X)
          (some g) = some (s2, some (k.val : Int)) ∧
      PunctualReceive (r + 1) (dispatchPass s2) (some (k.val : Int)) = some (g X)) := by
  have hocc : ∀ (t : State N), t.puncList
        = Function.update s.puncList k ⟨none, (s.puncList k).result, X⟩ →
      ∀ j : Fin N, j < k → (t.puncList j).handle ≠ none := by
    intro t ht j hj
    have hne : j ≠ k := ne_of_lt hj
    rw [ht, Function.update_noteq hne]
    exact hlow j hj
  constructor
  · have ht : (PunctualDestroy (PunctualSend s (some (k.val : Int)) X)
        (some (k.val : Int))).puncList
          = Function.update s.puncList k ⟨none, (s.puncList k).result, X⟩ := by
      simp [PunctualDestroy_slot, PunctualSend_slot]
    have hc := PunctualCreate_of_free hN fuel hfuel _ (some g) k (by rw [ht]; simp)
      (hocc _ ht)
    refine ⟨_, hc, ?_⟩
    simp [PunctualReceive_slot, dispatchPass, isrLoop_all, callSlot, ht]
  · have ht : (PunctualSend (PunctualDestroy s (some (k.val : Int)))
        (some (k.val : Int)) X).puncList
          = Function.update s.puncList k ⟨none, (s.puncList k).result, X⟩ := by
      simp [PunctualDestroy_slot, PunctualSend_slot]
    have hc := PunctualCreate_of_free hN fuel hfuel _ (some g) k (by rw [ht]; simp)
      (hocc _ ht)
    refine ⟨_, hc, ?_⟩
    simp [PunctualReceive_slot, dispatchPass, isrLoop_all, callSlot, ht]

/-- Witness of C20: slot 0 of a full table of four, parameter 41, new handler `x ↦ x + 1`:
the first pass after the reuse produces 42. -/
theorem C20_stale_param_survives_reuse_witness :
    (4 ≤ 255 ∧ 4 < 5) ∧
    ∃ s1, PunctualCreate 5
          (PunctualDestroy (PunctualSend (fullState 4 id) (some ((0 : Fin 4).val : Int)) 41)
            (some ((0 : Fin 4).val : Int)))
          (some (fun x => x + 1)) = some (s1, some ((0 : Fin 4).val : Int)) ∧
      PunctualReceive (0 + 1) (dispatchPass s1) (some ((0 : Fin 4).val : Int))
        = some (41 + 1) :=
  ⟨⟨by decide, by decide⟩,
    (C20_stale_param_survives_reuse 4 (by decide) 5 0 (by decide) (fullState 4 id) 0 41
      (fun x => x + 1) (fun j hj => absurd hj (Nat.not_lt_zero _))).1⟩

/-! ## Theorems: the postscaler -/

theorem succ_mod_cases (D j : Nat) (hD : 0 < D) :
    (j + 1) % D = if j % D + 1 = D then 0 else j % D + 1 := by
  have hlt : j % D < D := Nat.mod_lt j hD
  rw [Nat.add_mod]
  by_cases h1 : D = 1
  · subst h1
    simp [Nat.mod_one]
  · have h1D : 1 % D = 1 := Nat.mod_eq_of_lt (by omega)
    rw [h1D]
    split_ifs with h
    · rw [h, Nat.mod_self]
    · exact Nat.mod_eq_of_lt (by omega)

theorem PunctualISR_puncPostscaler {N : Nat} (D : Nat) (s : State N) :
    (PunctualISR D s).puncPostscaler
      = if D ≤ add32 s.puncPostscaler 1 then 0 else add32 s.puncPostscaler 1 := by
  simp only [PunctualISR]
  split_ifs <;> rfl

theorem iterate_ISR_puncPostscaler {N : Nat} (D : Nat) (hD1 : 1 ≤ D) (hD : D < 2 ^ 32)
    (s : State N) (hps : s.puncPostscaler = 0) :
    ∀ j : Nat, (Nat.iterate (PunctualISR D) j s).puncPostscaler = j % D := by
  intro j
  induction j with
  | zero => simpa using hps
  | succ j ih =>
    have hlt : j % D < D := Nat.mod_lt j hD1
    have hadd : add32 (j % D) 1 = j % D + 1 := by
      unfold add32 U32
      omega
    rw [Function.iterate_succ_apply', PunctualISR_puncPostscaler, ih, hadd,
      succ_mod_cases D j hD1]
    by_cases h : j % D + 1 = D
    · rw [if_pos (by omega), if_pos h]
    · rw [if_neg (by omega), if_neg h]

/-- C15. Postscaler rate division: for a divisor `1 ≤ D < 2^32` (the postscaler is a
`uint32_t`) and a state with postscaler 0, the `k`-th invocation of `PunctualISR`
(`k ≥ 1`) performs a dispatch pass if and only if `D` divides `k`; an invocation that
performs no pass changes only the postscaler, an invocation that performs one is the
dispatch pass, and after it the postscaler is 0. -/
theorem C15_postscaler_division (N : Nat) (D : Nat) (hD1 : 1 ≤ D) (hD : D < 2 ^ 32)
    (s : State N) (hps : s.puncPostscaler = 0) (k : Nat) (hk : 1 ≤ k) (t : State N) :
    (isrDispatches D (Nat.iterate (PunctualISR D) (k - 1) s) = true ↔ D ∣ k) ∧
    (isrDispatches D t = false →
      PunctualISR D t = { t with puncPostscaler := add32 t.puncPostscaler 1 }) ∧
    (isrDispatches D t = true →
      PunctualISR D t = dispatchPass t ∧ (PunctualISR D t).puncPostscaler = 0) := by
  refine ⟨?_, ?_, ?_⟩
  · have hlt : (k - 1) % D < D := Nat.mod_lt _ hD1
    have hadd : add32 ((k - 1) % D) 1 = (k - 1) % D + 1 := by
      unfold add32 U32
      omega
    have hk1 : k = (k - 1) + 1 := by omega
    have hmod := succ_mod_cases D (k - 1) hD1
    rw [← hk1] at hmod
    rw [isrDispatches, decide_eq_true_eq, iterate_ISR_puncPostscaler D hD1 hD s hps (k - 1),
      hadd, Nat.dvd_iff_mod_eq_zero, hmod]
    clear hadd hmod
    generalize (k - 1) % D = x at hlt ⊢
    split_ifs with h
    · exact ⟨fun _ => rfl, fun _ => by omega⟩
    · exact ⟨fun h2 => h (by omega), fun h3 => h3.elim⟩
  · intro h
    simp only [isrDispatches, decide_eq_false_iff_not] at h
    simp only [PunctualISR, if_neg h]
  · intro h
    simp only [isrDispatches, decide_eq_true_eq] at h
    rw [PunctualISR_pass D t h]
    exact ⟨rfl, rfl⟩

/-- Witness of C15: divisor 3 from the start-up state; the sixth invocation dispatches. -/
theorem C15_postscaler_division_witness :
    (1 ≤ 3 ∧ 3 < 2 ^ 32 ∧ (zeroState 4).puncPostscaler = 0 ∧ 1 ≤ 6) ∧
    (isrDispatches 3 (Nat.iterate (PunctualISR 3) (6 - 1) (zeroState 4)) = true ↔ 3 ∣ 6) :=
  ⟨⟨by decide, by decide, rfl, by decide⟩,
    (C15_postscaler_division 4 3 (by decide) (by decide) (zeroState 4) rfl 6 (by decide)
      (zeroState 4)).1⟩

/-! ## Theorems: the result of a slot -/

theorem PunctualCreate_cases {N : Nat} (hN : N ≤ 255) (fuel : Nat) (hfuel : N < fuel)
    (s : State N) (handle : Option (Nat → Nat)) :
    PunctualCreate fuel s handle = some (s, none) ∨
    ∃ k : Fin N, (s.puncList k).handle = none ∧
      PunctualCreate fuel s handle
        = some ({ s with puncList :=
                    Function.update s.puncList k { s.puncList k with handle := handle } },
                some (k.val : Int)) := by
  by_cases hfull : ∀ j : Fin N, (s.puncList j).handle ≠ none
  · exact Or.inl (PunctualCreate_of_full hN fuel hfuel s handle hfull)
  · have hex : ∃ j : Fin N, (s.puncList j).handle = none := by
      by_contra hno
      exact hfull fun j hj => hno ⟨j, hj⟩
    obtain ⟨k, hk, hlt⟩ := exists_first_free s.puncList hex
    exact Or.inr ⟨k, hk, PunctualCreate_of_free hN fuel hfuel s handle k hk hlt⟩

theorem PunctualCreate_result {N : Nat} (hN : N ≤ 255) (fuel : Nat) (hfuel : N < fuel)
    (s : State N) (handle : Option (Nat → Nat)) :
    ∃ s1 ptr, PunctualCreate fuel s handle = some (s1, ptr) ∧
      ∀ j : Fin N, (s1.puncList j).result = (s.puncList j).result := by
  rcases PunctualCreate_cases hN fuel hfuel s handle with h | ⟨k, _, h⟩
  · exact ⟨s, none, h, fun _ => rfl⟩
  · refine ⟨_, _, h, ?_⟩
    intro j
    by_cases hj : j = k
    · subst hj
      simp
    · simp [Function.update_noteq hj]

theorem store_result {N : Nat} (s : State N) (i : Int) (f : tPunctualItem → tPunctualItem)
    (hf : ∀ it, (f it).result = it.result) (j : Fin N) :
    ((store s i f).puncList j).result = (s.puncList j).result := by
  unfold store
  split_ifs with h1 h2
  · by_cases hj : j = ⟨i.toNat, by omega⟩
    · subst hj
      simp [hf]
    · simp [Function.update_noteq hj]
  · rfl
  · rfl

theorem PunctualDestroy_result {N : Nat} (s : State N) (ptr : tPunctualItemPtr)
    (j : Fin N) : ((PunctualDestroy s ptr).puncList j).result = (s.puncList j).result := by
  cases ptr with
  | none => rfl
  | some i =>
    rw [PunctualDestroy_eq]
    split_ifs
    · exact store_result s i (fun it => { it with handle := none }) (fun _ => rfl) j
    · rfl

theorem PunctualSend_result {N : Nat} (s : State N) (ptr : tPunctualItemPtr) (data : Nat)
    (j : Fin N) : ((PunctualSend s ptr data).puncList j).result = (s.puncList j).result := by
  cases ptr with
  | none => rfl
  | some i =>
    rw [PunctualSend_eq]
    split_ifs
    · exact store_result s i (fun it => { it with param := data }) (fun _ => rfl) j
    · rfl

theorem PunctualISR_result {N : Nat} (D : Nat) (s : State N) (k : Fin N)
    (h : (isrDispatches D s && (s.puncList k).handle.isSome) = false) :
    ((PunctualISR D s).puncList k).result = (s.puncList k).result := by
  by_cases hd : D ≤ add32 s.puncPostscaler 1
  · have hnone : (s.puncList k).handle = none := by
      simpa [isrDispatches, hd] using h
    rw [PunctualISR_free_slot D s k hnone]
  · simp only [PunctualISR, if_neg hd]

theorem step_total {N : Nat} (hN : N ≤ 255) (D fuel : Nat) (hfuel : N < fuel)
    (s : State N) (c : Call) : ∃ s1 r, step D fuel s c = some (s1, r) := by
  cases c with
  | init => exact ⟨_, _, rfl⟩
  | destroy ptr => exact ⟨_, _, rfl⟩
  | send ptr data => exact ⟨_, _, rfl⟩
  | isr => exact ⟨_, _, rfl⟩
  | create handle =>
    obtain ⟨s2, ptr, hc, _⟩ := PunctualCreate_result hN fuel hfuel s handle
    exact ⟨s2, some ptr, by simp only [step, hc]⟩

theorem run_total {N : Nat} (hN : N ≤ 255) (D fuel : Nat) (hfuel : N < fuel) :
    ∀ (calls : List Call) (s : State N), ∃ s1 log, run D fuel s calls = some (s1, log) := by
  intro calls
  induction calls with
  | nil => intro s; exact ⟨s, [], rfl⟩
  | cons c cs ih =>
    intro s
    obtain ⟨s2, r, hstep⟩ := step_total hN D fuel hfuel s c
    obtain ⟨s1, log, hrun⟩ := ih s2
    cases r with
    | none => exact ⟨s1, log, by simp only [run, hstep, hrun]⟩
    | some ptr => exact ⟨s1, (s, ptr) :: log, by simp only [run, hstep, hrun]⟩

theorem run_cons_some {N : Nat} (D fuel : Nat) (s s1 : State N) (c : Call) (cs : List Call)
    (log : List (State N × tPunctualItemPtr)) (h : run D fuel s (c :: cs) = some (s1, log)) :
    ∃ s2 r log2, step D fuel s c = some (s2, r) ∧ run D fuel s2 cs = some (s1, log2) := by
  rw [run] at h
  cases hstep : step D fuel s c with
  | none => simp [hstep] at h
  | some p =>
    obtain ⟨s2, r⟩ := p
    simp only [hstep] at h
    cases hrun : run D fuel s2 cs with
    | none => simp [hrun] at h
    | some q =>
      obtain ⟨s3, log2⟩ := q
      simp only [hrun, Option.some.injEq, Prod.mk.injEq] at h
      exact ⟨s2, r, log2, rfl, by rw [hrun, h.1]⟩

theorem step_result_zero {N : Nat} (hN : N ≤ 255) (D fuel : Nat) (hfuel : N < fuel)
    (k : Fin N) (s s2 : State N) (c : Call) (r : Option tPunctualItemPtr)
    (hstep : step D fuel s c = some (s2, r)) (h0 : (s.puncList k).result = 0)
    (hinv : invokedIn D fuel s [c] k = false) : (s2.puncList k).result = 0 := by
  cases c with
  | init =>
    simp only [step, Option.some.injEq, Prod.mk.injEq] at hstep
    rw [← hstep.1]
    rfl
  | destroy ptr =>
    simp only [step, Option.some.injEq, Prod.mk.injEq] at hstep
    rw [← hstep.1, PunctualDestroy_result]
    exact h0
  | send ptr data =>
    simp only [step, Option.some.injEq, Prod.mk.injEq] at hstep
    rw [← hstep.1, PunctualSend_result]
    exact h0
  | create handle =>
    obtain ⟨s3, ptr, hc, hres⟩ := PunctualCreate_result hN fuel hfuel s handle
    simp only [step, hc, Option.some.injEq, Prod.mk.injEq] at hstep
    rw [← hstep.1, hres]
    exact h0
  | isr =>
    simp only [step, Option.some.injEq, Prod.mk.injEq] at hstep
    have hk : (isrDispatches D s && (s.puncList k).handle.isSome) = false := by
      simpa [invokedIn, step] using hinv
    rw [← hstep.1, PunctualISR_result D s k hk]
    exact h0

theorem run_result_zero {N : Nat} (hN : N ≤ 255) (D fuel : Nat) (hfuel : N < fuel)
    (k : Fin N) :
    ∀ (calls : List Call) (s s1 : State N) (log : List (State N × tPunctualItemPtr)),
      run D fuel s calls = some (s1, log) → (s.puncList k).result = 0 →
      invokedIn D fuel s calls k = false → (s1.puncList k).result = 0 := by
  intro calls
  induction calls with
  | nil =>
    intro s s1 log hrun h0 _
    simp only [run, Option.some.injEq, Prod.mk.injEq] at hrun
    rw [← hrun.1]
    exact h0
  | cons c cs ih =>
    intro s s1 log hrun h0 hinv
    obtain ⟨s2, r, log2, hstep, hrun2⟩ := run_cons_some D fuel s s1 c cs log hrun
    have hsplit : invokedIn D fuel s [c] k = false ∧ invokedIn D fuel s2 cs k = false := by
      simp only [invokedIn, hstep, Bool.or_false, Bool.or_eq_false_iff] at hinv ⊢
      exact hinv
    exact ih s2 s1 log2 hrun2
      (step_result_zero hN D fuel hfuel k s s2 c r hstep h0 hsplit.1) hsplit.2

/-- C13, the claim as stated fails: from the start-up state of a table of four, the sequence
`Init; Create(f)` with `f` returning 7 (slot 0), one dispatching `PunctualISR` call,
`Destroy(slot 0)`, `Create(id)` returns slot 0 again, and `PunctualReceive` on it, before
any further dispatch pass, returns 7, not 0. -/
theorem C13_result_survives_reuse_counterexample :
    (run 1 5 (zeroState 4)
        [Call.init, Call.create (some (fun _ => 7)), Call.isr, Call.destroy (some 0),
          Call.create (some id)]).map
      (fun p => (p.2.map Prod.snd, PunctualReceive 1 p.1 (some 0)))
      = some ([some 0, some 0], some 7) := by
  decide

/-- C13 as amended. In every state reached from `PunctualInit` by a sequence of Init,
Create, Destroy, Send and `PunctualISR` calls during which no dispatch pass invoked a
handler in slot `k`, `PunctualReceive` on slot `k` returns 0, and so it does after a
further `PunctualCreate` that returns slot `k` (table of `N ≤ 255` slots). -/
theorem C13_result_zero_until_slot_invoked (N : Nat) (hN : N ≤ 255) (D fuel r : Nat)
    (hfuel : N < fuel) (s0 : State N) (calls : List Call) (g : Nat → Nat) (k : Fin N)
    (hinv : invokedIn D fuel (PunctualInit s0) calls k = false) :
    ∃ s1 log, run D fuel (PunctualInit s0) calls = some (s1, log) ∧
      PunctualReceive (r + 1) s1 (some (k.val : Int)) = some 0 ∧
      ∃ s2 ptr, PunctualCreate fuel s1 (some g) = some (s2, ptr) ∧
        PunctualReceive (r + 1) s2 (some (k.val : Int)) = some 0 := by
  obtain ⟨s1, log, hrun⟩ := run_total hN D fuel hfuel calls (PunctualInit s0)
  have h0 := run_result_zero hN D fuel hfuel k calls (PunctualInit s0) s1 log hrun rfl hinv
  obtain ⟨s2, ptr, hc, hres⟩ := PunctualCreate_result hN fuel hfuel s1 (some g)
  refine ⟨s1, log, hrun, ?_, s2, ptr, hc, ?_⟩
  · rw [PunctualReceive_slot, h0]
  · rw [PunctualReceive_slot, hres, h0]

/-- Witness of C13 as amended: slot 1 of a table of four is not invoked by `Create(id)`
(slot 0), a dispatching `PunctualISR` call and `Destroy(slot 0)`. -/
theorem C13_result_zero_until_slot_invoked_witness :
    (4 ≤ 255 ∧ 4 < 5 ∧
      invokedIn 1 5 (PunctualInit (zeroState 4))
        [Call.create (some id), Call.isr, Call.destroy (some 0)] (1 : Fin 4) = false) ∧
    ∃ s1 log, run 1 5 (PunctualInit (zeroState 4))
        [Call.create (some id), Call.isr, Call.destroy (some 0)] = some (s1, log) ∧
      PunctualReceive (0 + 1) s1 (some ((1 : Fin 4).val : Int)) = some 0 ∧
      ∃ s2 ptr, PunctualCreate 5 s1 (some id) = some (s2, ptr) ∧
        PunctualReceive (0 + 1) s2 (some ((1 : Fin 4).val : Int)) = some 0 :=
  ⟨⟨by decide, by decide, by decide⟩,
    C13_result_zero_until_slot_invoked 4 (by decide) 1 5 0 (by decide) (zeroState 4)
      [Call.create (some id), Call.isr, Call.destroy (some 0)] id 1 (by decide)⟩

/-! ## Theorems: interrupt masking -/

theorem createLoopTraced_eq {N : Nat} (handle : Option (Nat → Nat)) :
    ∀ (fuel i : Nat) (s : State N),
      createLoopTraced handle fuel i s
        = match createLoop handle fuel i s.puncList with
          | none => none
          | some (tbl, ptr) =>
            some ({ s with puncList := tbl }, ptr,
              match ptr with
              | some j => [⟨j, true, s.intEn⟩]
              | none => []) := by
  intro fuel
  induction fuel with
  | zero => intro i s; rfl
  | succ n ih =>
    intro i s
    rw [createLoopTraced, createLoop]
    by_cases h : i < N
    · rw [dif_pos h, dif_pos h]
      by_cases hfree : (s.puncList ⟨i, h⟩).handle.isNone = true
      · rw [if_pos hfree, if_pos hfree]
        rfl
      · rw [if_neg hfree, if_neg hfree]
        exact ih _ s
    · rw [dif_neg h, dif_neg h]

theorem PunctualCreateTraced_eq {N : Nat} (fuel : Nat) (s : State N)
    (handle : Option (Nat → Nat)) (s1 : State N) (ptr : tPunctualItemPtr) :
    PunctualCreate fuel s handle = some (s1, ptr) →
    ∃ w, PunctualCreateTraced fuel s handle = some (s1, ptr, w) ∧
      ∀ e ∈ w, e.intEn = false := by
  intro h
  simp only [PunctualCreate, PunctualCreateTraced, createLoopTraced_eq] at h ⊢
  cases hl : createLoop handle fuel 0 (mIntDisable s).puncList with
  | none => simp [hl] at h
  | some p =>
    obtain ⟨tbl, q⟩ := p
    simp only [hl, Option.some.injEq, Prod.mk.injEq] at h ⊢
    obtain ⟨h1, h2⟩ := h
    refine ⟨_, ⟨h1, h2, rfl⟩, ?_⟩
    intro e he
    cases q with
    | none => simp at he
    | some j =>
      simp only [List.mem_singleton] at he
      rw [he]
      rfl

theorem PunctualCreate_intEn {N : Nat} (hN : N ≤ 255) (fuel : Nat) (hfuel : N < fuel)
    (s : State N) (handle : Option (Nat → Nat)) :
    ∃ s1 ptr, PunctualCreate fuel s handle = some (s1, ptr) ∧ s1.intEn = s.intEn := by
  rcases PunctualCreate_cases hN fuel hfuel s handle with h | ⟨k, _, h⟩
  · exact ⟨_, _, h, rfl⟩
  · exact ⟨_, _, h, rfl⟩

theorem store_intEn {N : Nat} (s : State N) (i : Int) (f : tPunctualItem → tPunctualItem) :
    (store s i f).intEn = s.intEn := by
  unfold store
  split_ifs <;> rfl

/-- C16. Nesting-safe interrupt masking: with the interrupt-enable flag as part of the
state, for every initial flag value and every argument, `PunctualCreate` (table of
`N ≤ 255` slots), `PunctualDestroy` and `PunctualSend` return with the flag equal to its
value on entry, and every write to a slot's handle or param they perform happens while
the flag is disabled. The traced functions compute the same state as the plain ones. -/
theorem C16_interrupt_masking (N : Nat) (hN : N ≤ 255) (fuel : Nat) (hfuel : N < fuel)
    (s : State N) (handle : Option (Nat → Nat)) (ptr : tPunctualItemPtr) (data : Nat) :
    (∃ s1 p w, PunctualCreateTraced fuel s handle = some (s1, p, w) ∧
      PunctualCreate fuel s handle = some (s1, p) ∧
      s1.intEn = s.intEn ∧ ∀ e ∈ w, e.intEn = false) ∧
    ((PunctualDestroyTraced s ptr).1 = PunctualDestroy s ptr ∧
      (PunctualDestroy s ptr).intEn = s.intEn ∧
      ∀ e ∈ (PunctualDestroyTraced s ptr).2, e.intEn = false) ∧
    ((PunctualSendTraced s ptr data).1 = PunctualSend s ptr data ∧
      (PunctualSend s ptr data).intEn = s.intEn ∧
      ∀ e ∈ (PunctualSendTraced s ptr data).2, e.intEn = false) := by
  refine ⟨?_, ?_, ?_⟩
  · obtain ⟨s1, p, hc, hflag⟩ := PunctualCreate_intEn hN fuel hfuel s handle
    obtain ⟨w, ht, hw⟩ := PunctualCreateTraced_eq fuel s handle s1 p hc
    exact ⟨s1, p, w, ht, hc, hflag, hw⟩
  · cases ptr with
    | none => exact ⟨rfl, rfl, by simp [PunctualDestroyTraced]⟩
    | some i =>
      by_cases hg : 0 ≤ i ∧ i ≤ (N : Int)
      · refine ⟨by simp only [PunctualDestroyTraced, PunctualDestroy, if_pos hg], ?_, ?_⟩
        · rw [PunctualDestroy_eq, if_pos hg, store_intEn]
        · intro e he
          simp only [PunctualDestroyTraced, if_pos hg, List.mem_singleton] at he
          rw [he]
          rfl
      · refine ⟨by simp only [PunctualDestroyTraced, PunctualDestroy, if_neg hg], ?_, ?_⟩
        · rw [PunctualDestroy_eq, if_neg hg]
        · intro e he
          simp [PunctualDestroyTraced, if_neg hg] at he
  · cases ptr with
    | none => exact ⟨rfl, rfl, by simp [PunctualSendTraced]⟩
    | some i =>
      by_cases hg : 0 ≤ i ∧ i ≤ (N : Int)
      · refine ⟨by simp only [PunctualSendTraced, PunctualSend, if_pos hg], ?_, ?_⟩
        · rw [PunctualSend_eq, if_pos hg, store_intEn]
        · intro e he
          simp only [PunctualSendTraced, if_pos hg, List.mem_singleton] at he
          rw [he]
          rfl
      · refine ⟨by simp only [PunctualSendTraced, PunctualSend, if_neg hg], ?_, ?_⟩
        · rw [PunctualSend_eq, if_neg hg]
        · intro e he
          simp [PunctualSendTraced, if_neg hg] at he

/-- Witness of C16 for the default capacity `N = 4`, on the start-up state (interrupts
enabled): each of the three functions performs one write, with the flag disabled, and
returns with interrupts enabled again. -/
theorem C16_interrupt_masking_witness :
    (4 ≤ 255 ∧ 4 < 5) ∧
    ((PunctualDestroyTraced (zeroState 4) (some 0)).1 = PunctualDestroy (zeroState 4) (some 0) ∧
      (PunctualDestroy (zeroState 4) (some 0)).intEn = (zeroState 4).intEn ∧
      ∀ e ∈ (PunctualDestroyTraced (zeroState 4) (some 0)).2, e.intEn = false) ∧
    (PunctualCreateTraced 5 (zeroState 4) (some id)).map (fun p => p.2.2)
      = some [⟨0, true, false⟩] ∧
    (PunctualDestroyTraced (zeroState 4) (some 0)).2 = [⟨0, true, false⟩] ∧
    (PunctualSendTraced (zeroState 4) (some 0) 7).2 = [⟨0, false, false⟩] :=
  ⟨⟨by decide, by decide⟩,
    (C16_interrupt_masking 4 (by decide) 5 (by decide) (zeroState 4) (some id) (some 0) 7).2.1,
    by decide, by decide, by decide⟩

/-! ## Theorems: `PunctualReceive` preempted by dispatch passes -/

theorem passes_zero {N : Nat} (s : State N) : passes 0 s = s := rfl

theorem passes_passes {N : Nat} (a b : Nat) (s : State N) :
    passes b (passes a s) = passes (a + b) s := by
  simp only [passes]
  rw [Nat.add_comm, Function.iterate_add_apply]

theorem bytes_of_uint32 (x : Nat) (hx : x < 2 ^ 32) :
    byteOf x 0 + 256 * byteOf x 1 + 65536 * byteOf x 2 + 16777216 * byteOf x 3 = x := by
  simp only [byteOf]
  norm_num
  omega

theorem readResultByte_slot {N : Nat} (s : State N) (k : Fin N) (j : Nat) :
    readResultByte s (some (k.val : Int)) j = some (byteOf (s.puncList k).result j) := by
  simp only [readResultByte, load_slot]

theorem PunctualReceiveAt_cons {N : Nat} (s : State N) (k : Fin N) (a : Arrivals)
    (rest : List Arrivals) :
    PunctualReceiveAt s (some (k.val : Int)) (a :: rest)
      = if (passes a.beforeCnt s).puncCnt ≠ (passes a.total s).puncCnt then
          PunctualReceiveAt (passes a.total s) (some (k.val : Int)) rest
        else
          some
            (byteOf ((passes (a.beforeCnt + a.beforeByte0) s).puncList k).result 0
              + 256 * byteOf
                  ((passes (a.beforeCnt + a.beforeByte0 + a.beforeByte1) s).puncList k).result 1
              + 65536 * byteOf
                  ((passes (a.beforeCnt + a.beforeByte0 + a.beforeByte1 + a.beforeByte2)
                    s).puncList k).result 2
              + 16777216 * byteOf
                  ((passes (a.beforeCnt + a.beforeByte0 + a.beforeByte1 + a.beforeByte2
                    + a.beforeByte3) s).puncList k).result 3,
              (passes a.beforeCnt s).puncCnt, (passes a.total s).puncCnt) := by
  have ht : a.total = a.beforeCnt + a.beforeByte0 + a.beforeByte1 + a.beforeByte2
      + a.beforeByte3 + a.beforeCheck := by
    simp only [Arrivals.total, Arrivals.betweenCounterReads]
    omega
  simp only [PunctualReceiveAt, readResultByte_slot, passes_passes, ht]

theorem PunctualReceiveAt_mid {N : Nat} (s : State N) (k : Fin N) (m : Nat) :
    PunctualReceiveAt s (some (k.val : Int)) [⟨0, 0, m, 0, 0, 0⟩]
      = if s.puncCnt ≠ (passes m s).puncCnt then none
        else
          some
            (byteOf (s.puncList k).result 0
              + 256 * byteOf ((passes m s).puncList k).result 1
              + 65536 * byteOf ((passes m s).puncList k).result 2
              + 16777216 * byteOf ((passes m s).puncList k).result 3,
              s.puncCnt, (passes m s).puncCnt) := by
  rw [PunctualReceiveAt_cons]
  simp only [Arrivals.total, Arrivals.betweenCounterReads, Nat.add_zero, Nat.zero_add,
    passes_zero, PunctualReceiveAt]

theorem PunctualReceiveAt_quiet {N : Nat} (s : State N) (k : Fin N)
    (hres : (s.puncList k).result < 2 ^ 32) :
    PunctualReceiveAt s (some (k.val : Int)) [⟨0, 0, 0, 0, 0, 0⟩]
        = some ((s.puncList k).result, s.puncCnt, s.puncCnt) ∧
      PunctualReceive 1 s (some (k.val : Int)) = some (s.puncList k).result := by
  refine ⟨?_, PunctualReceive_slot 0 s k⟩
  rw [PunctualReceiveAt_mid, passes_zero, if_neg (not_not.mpr rfl), bytes_of_uint32 _ hres]

end Punctual
